import Mathlib

/-! Shallow embedding of the `migrate` action of the konflux-ci
pipeline-migration-tool (`src/pipeline_migration/actions/migrate.py`),
together with the small parts of its collaborators that the verified
properties need.  Python dictionaries are embedded as association lists,
machine integers as `Nat`/`Int`, and fallible code as `Except`/`Option`. -/

instance {ε α : Type} [DecidableEq ε] [DecidableEq α] : DecidableEq (Except ε α)
  | .error a, .error b =>
    if h : a = b then isTrue (by rw [h])
    else isFalse (fun hh => h (by injection hh))
  | .error _, .ok _ => isFalse (fun h => by injection h)
  | .ok _, .error _ => isFalse (fun h => by injection h)
  | .ok a, .ok b =>
    if h : a = b then isTrue (by rw [h])
    else isFalse (fun hh => h (by injection hh))

/-- Exceptions raised on the embedded code paths: `packaging.version.parse`
raises `InvalidVersion` on a malformed version string, and `expand_versions`
raises `ValueError` (the spec calls it `RangeError`) when the current version
is greater than the new one. -/
inductive PyError where
  | invalidVersion
  | rangeError
deriving DecidableEq

/-- Release segment of a parsed version: `"0.3"` becomes `[0, 3]`. -/
abbrev Ver := List Nat

/-- Comparison of two release tuples with PEP 440 semantics: the shorter tuple
is padded with zeros and the comparison is lexicographic.  This models
`packaging.version.Version` comparison for the purely numeric dotted version
strings that reach it here (the task-tag regular expression admits only digits
and dots before the dash). -/
def verCmp : Ver → Ver → Ordering
  | [], bs => if bs.all (fun b => b == 0) then .eq else .lt
  | a :: as, [] => if a == 0 then verCmp as [] else .gt
  | a :: as, b :: bs => if a < b then .lt else if b < a then .gt else verCmp as bs

/-- Python `s.split(".")` at the character level. -/
def splitOnDot : List Char → List (List Char)
  | [] => [[]]
  | c :: cs =>
    let r := splitOnDot cs
    if c = '.' then [] :: r
    else
      match r with
      | p :: ps => (c :: p) :: ps
      | [] => [[c]]

/-- Numeric value of a digit string, Python `int(p)`. -/
def digitsToNat (cs : List Char) : Nat :=
  cs.foldl (fun a c => a * 10 + (c.toNat - '0'.toNat)) 0

/-- Models `packaging.version.parse` restricted to the release-only version
strings occurring here: a dotted sequence of numeric components parses to its
release tuple; anything else (empty component, non-digit) raises
`InvalidVersion`, modelled as `none`. -/
def parse_version (s : String) : Option Ver :=
  let parts := splitOnDot s.toList
  if parts.all (fun p => !p.isEmpty && p.all Char.isDigit) then
    some (parts.map digitsToNat)
  else
    none

/-- Python `tag_name.split("-")[0]`: the characters before the first dash, or
the whole string when there is no dash. -/
def version_part (s : String) : String :=
  (s.toList.takeWhile (fun c => c != '-')).asString

/-- Lift the result of `parse_version` into the exception monad: Python's
`InvalidVersion` propagates as an exception. -/
def liftParse (o : Option Ver) : Except PyError Ver :=
  match o with
  | some v => .ok v
  | none => .error .invalidVersion

/-- Lower-case hexadecimal digit, the `[0-9a-f]` character class. -/
def isHexLower (c : Char) : Bool := c.isDigit || ('a' ≤ c && c ≤ 'f')

/-- The regular expression `TASK_TAG_REGEXP = ^[0-9.]+-[0-9a-f]+$`.  Neither
character class contains the dash, so the pattern matches exactly the strings
with a single dash separating a nonempty digits-and-dots part from a nonempty
lower-hex part. -/
def matches_task_tag (s : String) : Bool :=
  let cs := s.toList
  let pre := cs.takeWhile (fun c => c != '-')
  let rest := cs.drop pre.length
  (!pre.isEmpty) && pre.all (fun c => c.isDigit || c == '.') &&
    (match rest with
     | '-' :: suf => (!suf.isEmpty) && suf.all isHexLower
     | _ => false)

/-- One tag mapping as responded by the Quay.io listRepoTags endpoint; only the
fields the migrate action reads are embedded. -/
structure TagInfo where
  name : String
  manifest_digest : String
  start_ts : Int
deriving DecidableEq

/-- Modelled from the spec: `QuayTagInfo` (`pipeline_migration/quay.py` is not
under src/); §3 of the spec gives its fields as name, manifestDigest and
startTs, derived from registry tag listings. -/
structure QuayTagInfo where
  name : String
  manifest_digest : String
  start_ts : Int
deriving DecidableEq

/-- Modelled from the spec: `QuayTagInfo.from_tag_info` builds the record from
one tag mapping of the registry listing. -/
def QuayTagInfo.from_tag_info (t : TagInfo) : QuayTagInfo :=
  ⟨t.name, t.manifest_digest, t.start_ts⟩

/-- A migration attached to one task bundle: the bundle image reference with
tag and digest, and the script content. -/
structure TaskBundleMigration where
  task_bundle : String
  migration_script : String
deriving DecidableEq

/-- One task bundle upgrade, built from the Renovate template fields. -/
structure TaskBundleUpgrade where
  dep_name : String
  current_value : String
  current_digest : String
  new_value : String
  new_digest : String
  migrations : List TaskBundleMigration := []
deriving DecidableEq

/-- The `current_bundle` property: `f"{dep_name}:{current_value}@{current_digest}"`. -/
def TaskBundleUpgrade.current_bundle (u : TaskBundleUpgrade) : String :=
  u.dep_name ++ ":" ++ u.current_value ++ "@" ++ u.current_digest

/-- The `new_bundle` property: `f"{dep_name}:{new_value}@{new_digest}"`. -/
def TaskBundleUpgrade.new_bundle (u : TaskBundleUpgrade) : String :=
  u.dep_name ++ ":" ++ u.new_value ++ "@" ++ u.new_digest

/-- The `only_tags_pinned_by_version_revision` generator: keep the tags whose
name matches the task-tag regular expression. -/
def only_tags_pinned_by_version_revision (tags_info : List TagInfo) : List TagInfo :=
  tags_info.filter (fun t => matches_task_tag t.name)

/-- The `minor` property of a parsed version: the second release component, or
0 when the release has fewer than two components. -/
def Ver.minor (v : Ver) : Nat := (v.drop 1).headD 0

/-- The `expand_versions` function: parse both version strings, raise when the
from-version is greater than the to-version, and otherwise produce the list
`["0.<minor>", ...]` for the minors from the from-version's up to the
to-version's inclusive (`range(int(a.minor), int(b.minor) + 1)`). -/
def expand_versions (from_ to_ : String) : Except PyError (List String) :=
  match liftParse (parse_version from_) with
  | .error e => .error e
  | .ok from_version =>
    match liftParse (parse_version to_) with
    | .error e => .error e
    | .ok to_version =>
      if verCmp from_version to_version == Ordering.gt then
        Except.error PyError.rangeError
      else
        Except.ok ((List.range' from_version.minor
          (to_version.minor + 1 - from_version.minor)).map
          (fun minor => "0." ++ toString minor))

/-- State of the single oldest-to-newest pass of `drop_out_of_order_versions`:
the kept tags (in the append order of the pass), the version watermark
`highest_version_so_far`, `current_tag_info`, `new_tag_info` and the
`is_out_of_order` flag. -/
structure DropState where
  kept : List TagInfo := []
  highest : Option Ver := none
  cur : Option TagInfo := none
  new : Option TagInfo := none
  ooo : Bool := false
deriving DecidableEq

/-- One iteration of the loop body of `drop_out_of_order_versions` for tag `t`:
first the current/new bookkeeping (`if current_tag_info is None and tag
matches the current digest ... elif new_tag_info is None and tag matches the
new digest`), then the watermark check `highest_version_so_far is None or
version >= highest_version_so_far` deciding whether the tag is kept.
`_parse_version` may raise `InvalidVersion`. -/
def drop_step (cd nd : String) (st : DropState) (t : TagInfo) : Except PyError DropState :=
  let marked : Except PyError DropState :=
    if st.cur.isNone && (t.manifest_digest == cd) then
      match st.highest with
      | some h =>
        match liftParse (parse_version (version_part t.name)) with
        | .error e => .error e
        | .ok v => .ok { st with cur := some t, ooo := st.ooo || (verCmp v h == Ordering.lt) }
      | none => .ok { st with cur := some t }
    else if st.new.isNone && (t.manifest_digest == nd) then
      .ok { st with new := some t }
    else
      .ok st
  match marked with
  | .error e => .error e
  | .ok st =>
    match liftParse (parse_version (version_part t.name)) with
    | .error e => .error e
    | .ok v =>
      match st.highest with
      | none => .ok { st with kept := st.kept ++ [t], highest := some v }
      | some h =>
        if verCmp v h == Ordering.lt then .ok st
        else .ok { st with kept := st.kept ++ [t], highest := some v }

/-- The `for tag in reversed(list(tags_info))` loop of
`drop_out_of_order_versions`, iterated over an already reversed list. -/
def drop_go (cd nd : String) : List TagInfo → DropState → Except PyError DropState
  | [], st => .ok st
  | t :: ts, st =>
    match drop_step cd nd st t with
    | .error e => .error e
    | .ok st => drop_go cd nd ts st

/-- Insert a tag into a list that is already sorted newest-first, placing it
after every tag whose start_ts is greater than or equal to its own. -/
def insert_ts_desc (t : TagInfo) : List TagInfo → List TagInfo
  | [] => [t]
  | u :: us => if u.start_ts < t.start_ts then t :: u :: us else u :: insert_ts_desc t us

/-- Python's stable `sort(key=operator.itemgetter("start_ts"), reverse=True)`:
a stable sort, newest first, keeping the original relative order of tags with
equal timestamps; realised as a stable insertion sort. -/
def sort_ts_desc (l : List TagInfo) : List TagInfo :=
  l.foldl (fun acc t => insert_ts_desc t acc) []

/-- The `drop_out_of_order_versions` function: one oldest-to-newest pass with
the version watermark, then the kept tags re-sorted newest first; returns the
pruned list, the current tag, the new tag and the out-of-order flag. -/
def drop_out_of_order_versions (tags_info : List TagInfo) (bundle_upgrade : TaskBundleUpgrade) :
    Except PyError (List TagInfo × Option TagInfo × Option TagInfo × Bool) :=
  match drop_go bundle_upgrade.current_digest bundle_upgrade.new_digest tags_info.reverse {} with
  | .error e => .error e
  | .ok st => .ok (sort_ts_desc st.kept, st.cur, st.new, st.ooo)

/-- The `for i, tag in enumerate(tags_info)` loop of
`determine_task_bundle_upgrades_range` computing `(current_pos, new_pos)`,
starting from `(-1, -1)`; the `elif` gives the new digest priority when a tag
carries both digests. -/
def find_positions (cd nd : String) : List TagInfo → Int → Int × Int → Int × Int
  | [], _, acc => acc
  | t :: ts, i, (cp, np) =>
    if t.manifest_digest == nd then find_positions cd nd ts (i + 1) (cp, i)
    else if t.manifest_digest == cd then find_positions cd nd ts (i + 1) (i, np)
    else find_positions cd nd ts (i + 1) (cp, np)

/-- Normalise a Python slice bound: a negative index counts from the end of the
list and is clamped at 0; a nonnegative one is clamped at the length. -/
def py_bound (len : Nat) (i : Int) : Nat :=
  if i < 0 then ((len : Int) + i).toNat else min i.toNat len

/-- Python `l[a:b]`. -/
def py_slice {α : Type} (l : List α) (a b : Int) : List α :=
  (l.take (py_bound l.length b)).drop (py_bound l.length a)

/-- Python `l[a:]`. -/
def py_slice_from {α : Type} (l : List α) (a : Int) : List α :=
  l.drop (py_bound l.length a)

/-- The `determine_task_bundle_upgrades_range` function, over the tag listing
`tags` that `list_bundle_tags` assembled from the registry: filter to
version-revision pinned tags, drop out-of-order versions, return empty when
the current or the new bundle tag was not seen, and otherwise slice the pruned
list (`tags_info[new_pos:]` in the out-of-order case, otherwise
`tags_info[new_pos:current_pos]`). -/
def determine_task_bundle_upgrades_range (tags : List TagInfo)
    (task_bundle_upgrade : TaskBundleUpgrade) : Except PyError (List QuayTagInfo) :=
  match drop_out_of_order_versions
      (only_tags_pinned_by_version_revision tags) task_bundle_upgrade with
  | .error e => .error e
  | .ok (tags_info, current_tag_info, new_tag_info, is_out_of_order) =>
    match current_tag_info with
    | none => .ok []
    | some _ =>
      match new_tag_info with
      | none => .ok []
      | some _ =>
        let pos := find_positions task_bundle_upgrade.current_digest
          task_bundle_upgrade.new_digest tags_info 0 (-1, -1)
        let the_range :=
          if is_out_of_order then py_slice_from tags_info pos.2
          else py_slice tags_info pos.2 pos.1
        .ok (the_range.map QuayTagInfo.from_tag_info)

/-- The parsed version of a tag name, with a default value for the proof-side
total loop that is only used under the assumption that parsing succeeds. -/
def tag_ver (t : TagInfo) : Ver := (parse_version (version_part t.name)).getD []

/-- First half of the loop body of `drop_out_of_order_versions` (the
current/new bookkeeping), as a total function on pre-parsed versions;
`drop_step` coincides with `keep_step ∘ mark_step` whenever the tag name
parses. -/
def mark_step (cd nd : String) (st : DropState) (t : TagInfo) : DropState :=
  if st.cur.isNone && (t.manifest_digest == cd) then
    match st.highest with
    | some h =>
      { st with cur := some t, ooo := st.ooo || (verCmp (tag_ver t) h == Ordering.lt) }
    | none => { st with cur := some t }
  else if st.new.isNone && (t.manifest_digest == nd) then { st with new := some t }
  else st

/-- Second half of the loop body: the watermark keep decision. -/
def keep_step (st : DropState) (t : TagInfo) : DropState :=
  match st.highest with
  | none => { st with kept := st.kept ++ [t], highest := some (tag_ver t) }
  | some h =>
    if verCmp (tag_ver t) h == Ordering.lt then st
    else { st with kept := st.kept ++ [t], highest := some (tag_ver t) }

/-- The total loop body, defined for tags whose name parses. -/
def drop_stepT (cd nd : String) (st : DropState) (t : TagInfo) : DropState :=
  keep_step (mark_step cd nd st t) t

/-- The total drop loop over an already reversed tag list. -/
def dropFold (cd nd : String) (l : List TagInfo) (st : DropState) : DropState :=
  l.foldl (drop_stepT cd nd) st

/-- The pruned tag list computed inside `determine_task_bundle_upgrades_range`
(the first component of `drop_out_of_order_versions` over the pinned tags),
empty when the version parse raised; a stating convenience. -/
def pruned_tags (tags : List TagInfo) (u : TaskBundleUpgrade) : List TagInfo :=
  match drop_out_of_order_versions (only_tags_pinned_by_version_revision tags) u with
  | .ok r => r.1
  | .error _ => []

/-- The value left in a last-assignment-wins position variable after scanning
a list with predicate `p` from index `i`, starting from default `d`: the
closed form of each component of `find_positions`. -/
def last_upd (p : TagInfo → Bool) : List TagInfo → Int → Int → Int
  | [], _, d => d
  | t :: ts, i, d => last_upd p ts (i + 1) (if p t then i else d)

/-- A default tag record for stating index-based hypotheses with `List.getD`. -/
def dfltTag : TagInfo := ⟨"", "", 0⟩

/-- The tag listing of the spec's out-of-order pruning example, newest first by
start_ts. -/
def c3_tags : List TagInfo :=
  [⟨"0.3-b", "d6", 6⟩, ⟨"0.2-b", "d5", 5⟩, ⟨"0.3-a", "d4", 4⟩,
   ⟨"0.1-b", "d3", 3⟩, ⟨"0.2-a", "d2", 2⟩, ⟨"0.1-a", "d1", 1⟩]

/-- A three-tag listing in which the tag of the new digest `"B"` is itself
out-of-order (pruned), while the tag of the current digest `"C"` is kept. -/
def c1_tags : List TagInfo :=
  [⟨"0.3-a", "A", 3⟩, ⟨"0.2-b", "B", 2⟩, ⟨"0.3-c", "C", 1⟩]

/-- The upgrade whose current bundle is `"C"` and new bundle is `"B"` in
`c1_tags`. -/
def c1_upgrade : TaskBundleUpgrade :=
  ⟨"quay.io/konflux-ci/task-a", "0.3", "C", "0.2", "B", []⟩

/-- A tag listing in which the digest `"D"` is carried by two tags. -/
def c10_tags : List TagInfo :=
  [⟨"0.4-e", "E", 4⟩, ⟨"0.3-b", "D", 3⟩, ⟨"0.2-a", "D", 2⟩, ⟨"0.1-f", "F", 1⟩]

/-- An upgrade whose current and new digests are both the duplicated `"D"`. -/
def c10_upgrade : TaskBundleUpgrade :=
  ⟨"quay.io/konflux-ci/task-b", "0.2", "D", "0.3", "D", []⟩

/-- A tag listing with a single tag whose name `"0.-a"` passes the task-tag
regular expression but whose version prefix `"0."` is rejected by
`packaging.version.parse`. -/
def c7_tags : List TagInfo := [⟨"0.-a", "X", 1⟩]

/-- An upgrade none of whose digests appears in `c7_tags`. -/
def c7_upgrade : TaskBundleUpgrade :=
  ⟨"quay.io/konflux-ci/task-c", "0.1", "C", "0.2", "N", []⟩

/-- Modelled from the spec: `is_true` (`pipeline_migration/utils.py` is not
under src/); §6 of the spec: truthiness is case-insensitive `"true"`, any
other value is false. -/
def is_true (value : String) : Bool :=
  (value.toList.map Char.toLower).asString == "true"

/-- An annotations mapping (`AnnotationsT`), embedded as an association list. -/
abbrev AnnotationsT := List (String × String)

/-- Python `annotations.get(key, default)`. -/
def annGet (a : AnnotationsT) (key dflt : String) : String := (a.lookup key).getD dflt

def ANNOTATION_HAS_MIGRATION : String := "dev.konflux-ci.task.has-migration"

def ANNOTATION_IS_MIGRATION : String := "dev.konflux-ci.task.is-migration"

def ANNOTATION_PREVIOUS_MIGRATION_BUNDLE : String :=
  "dev.konflux-ci.task.previous-migration-bundle"

/-- An OCI descriptor; only the digest and the annotations are read here. -/
structure Descriptor where
  digest : String
  annotations : AnnotationsT := []
deriving DecidableEq

/-- The registry state that `fetch_migration_file` consults for one task
bundle digest: the referrers index filtered by artifact type
`text/x-shellscript` (`registry.list_referrers`), each manifest's layer list
by manifest digest (`registry.get_manifest`), and the blobs by digest
(`registry.get_artifact`, already UTF-8 decoded). -/
structure OciEnv where
  referrers : List Descriptor
  manifest_layers : String → List Descriptor
  blob : String → String

/-- Failures of `fetch_migration_file`: more than one migration referrer
raises `IncorrectMigrationAttachment`; a migration referrer whose manifest has
no layers would make `manifest["layers"][0]` raise `IndexError`. -/
inductive FetchError where
  | incorrectMigrationAttachment
  | indexError
deriving DecidableEq

/-- The list comprehension of `fetch_migration_file`: the descriptors of the
referrers index whose is-migration annotation is truthy. -/
def migration_descriptors (env : OciEnv) : List Descriptor :=
  env.referrers.filter
    (fun d => is_true (annGet d.annotations ANNOTATION_IS_MIGRATION "false"))

/-- The `fetch_migration_file` function for one bundle (its image name and
digest are fixed by `env`): select the referrers whose is-migration annotation
is truthy; more than one is an error; exactly one leads to the blob of the
first layer of that referrer's manifest; none yields `none`. -/
def fetch_migration_file (env : OciEnv) : Except FetchError (Option String) :=
  let descriptors := migration_descriptors env
  if 1 < descriptors.length then .error .incorrectMigrationAttachment
  else
    match descriptors with
    | [] => .ok none
    | d :: _ =>
      match env.manifest_layers d.digest with
      | [] => .error .indexError
      | layer :: _ => .ok (some (env.blob layer.digest))

/-- The manifest annotations of one bundle image that the resolver strategies
read, keyed by the bundle's manifest digest; the defaults mirror
`manifest.get("annotations", {}).get(key, default)`. -/
structure ManifestAnn where
  has_migration : String := "false"
  previous_migration_bundle : String := ""
deriving DecidableEq

/-- The registry as the resolver strategies see it: the manifest annotations
per bundle digest, and the value returned by `fetch_migration_file` per bundle
digest (`none` when no migration referrer is attached; the error path of the
fetch is modelled by `fetch_migration_file` itself). -/
structure ResolverEnv where
  manifest : String → ManifestAnn
  script : String → Option String

/-- The `Container(f"{dep_name}:{tag}@{digest}").uri_with_tag` reference. -/
def uri_with_tag (dep_name tag digest : String) : String :=
  dep_name ++ ":" ++ tag ++ "@" ++ digest

/-- The yield decision both resolver strategies share for one visited bundle:
a migration is yielded exactly when the has-migration annotation is truthy and
the fetched script content is truthy (`if script_content:` — a `None` or empty
script yields nothing). -/
def step_yield (env : ResolverEnv) (dep_name : String) (tag : QuayTagInfo) :
    List TaskBundleMigration :=
  if is_true (env.manifest tag.manifest_digest).has_migration then
    match env.script tag.manifest_digest with
    | some s =>
      if s == "" then [] else [⟨uri_with_tag dep_name tag.name tag.manifest_digest, s⟩]
    | none => []
  else []

/-- `SimpleIterationResolver._resolve_migrations`: walk the whole range
newest-first, yielding each visited bundle's migration. -/
def simple_resolve_migrations (env : ResolverEnv) (dep_name : String)
    (upgrades_range : List QuayTagInfo) : List TaskBundleMigration :=
  (upgrades_range.map (step_yield env dep_name)).flatten

/-- The while-loop of `LinkedMigrationsResolver._resolve_migrations`, with
explicit fuel: from position `i`, yield the visited bundle's migration, then
follow its previous-migration-bundle annotation — an empty value stops, a
digest absent from `digests` stops (`ValueError` from `list.index`), and
otherwise the loop continues from the first index of that digest.  The loop
itself has no bound, so `none` records that the fuel ran out before the loop
stopped. -/
def linked_go (env : ResolverEnv) (dep_name : String) (upgrades_range : List QuayTagInfo)
    (digests : List String) :
    Nat → Nat → List TaskBundleMigration → Option (List TaskBundleMigration)
  | _, 0, _ => none
  | i, fuel + 1, acc =>
    match upgrades_range[i]? with
    | none => none
    | some tag_info =>
      let acc := acc ++ step_yield env dep_name tag_info
      let digest := (env.manifest tag_info.manifest_digest).previous_migration_bundle
      if digest == "" then some acc
      else
        match digests.findIdx? (fun d => d == digest) with
        | none => some acc
        | some j => linked_go env dep_name upgrades_range digests j fuel acc

/-- `LinkedMigrationsResolver._resolve_migrations`: an empty range yields
nothing; otherwise the linked walk starts at index 0 over the listed manifest
digests. -/
def linked_resolve_migrations (env : ResolverEnv) (dep_name : String)
    (upgrades_range : List QuayTagInfo) (fuel : Nat) : Option (List TaskBundleMigration) :=
  if upgrades_range.isEmpty then some []
  else
    linked_go env dep_name upgrades_range (upgrades_range.map QuayTagInfo.manifest_digest)
      0 fuel []

/-- `Resolver.resolve` over a batch of upgrades, abstracted over the
strategy's generator `gen` (`_resolve_migrations`) and the computed range
`range_of` (the registry-dependent `determine_task_bundle_upgrades_range`):
each worker of the thread pool appends the yielded migrations to its own
upgrade's `migrations` and then reverses that list in place; the pool joins
every worker, so the batch is the per-upgrade map. -/
def resolver_resolve (gen : String → List QuayTagInfo → List TaskBundleMigration)
    (range_of : TaskBundleUpgrade → List QuayTagInfo)
    (tb_upgrades : List TaskBundleUpgrade) : List TaskBundleUpgrade :=
  tb_upgrades.map (fun u =>
    { u with migrations := (u.migrations ++ gen u.dep_name (range_of u)).reverse })

/-- A one-bundle environment whose previous-migration-bundle annotation points
back at the bundle itself. -/
def self_loop_env : ResolverEnv :=
  ⟨fun d => if d == "sha256:d1" then ⟨"false", "sha256:d1"⟩ else {}, fun _ => none⟩

/-- The one-tag upgrade range for `self_loop_env`. -/
def self_loop_range : List QuayTagInfo := [⟨"0.1-a", "sha256:d1", 1⟩]

/-- One validated Renovate upgrade mapping, with the fields `_collect` reads. -/
structure UpgradeRecord where
  depName : String
  currentValue : String
  currentDigest : String
  newValue : String
  newDigest : String
  packageFile : String
  parentDir : String
deriving DecidableEq

/-- The `TaskBundleUpgrade(...)` that `_collect` constructs from one record. -/
def mk_task_bundle_upgrade (r : UpgradeRecord) : TaskBundleUpgrade :=
  ⟨r.depName, r.currentValue, r.currentDigest, r.newValue, r.newDigest, []⟩

/-- A package file together with the upgrades recorded against it. -/
structure PackageFile where
  file_path : String
  parent_dir : String
  task_bundle_upgrades : List TaskBundleUpgrade := []
deriving DecidableEq

/-- A Python dict in insertion order, embedded as an association list with
unique keys: lookup is `List.lookup` and an absent key is appended at the
end. -/
abbrev PyDict (α : Type) := List (String × α)

/-- One iteration of `TaskBundleUpgradesManager._collect`: build the
`TaskBundleUpgrade` and `PackageFile` from the record, reuse the stored
upgrade when its current-bundle key is already present (otherwise store it),
reuse the stored package file when its path is already present (otherwise
store it), and append the deduplicated upgrade to the package file's list. -/
def collect_step (maps : PyDict TaskBundleUpgrade × PyDict PackageFile)
    (r : UpgradeRecord) : PyDict TaskBundleUpgrade × PyDict PackageFile :=
  let tbu := mk_task_bundle_upgrade r
  let key := tbu.current_bundle
  let found := maps.1.lookup key
  let tb_map := match found with
    | none => maps.1 ++ [(key, tbu)]
    | some _ => maps.1
  let tb_update := found.getD tbu
  let pf_map := match maps.2.lookup r.packageFile with
    | none => maps.2 ++ [(r.packageFile, ⟨r.packageFile, r.parentDir, [tb_update]⟩)]
    | some _ => maps.2.map (fun kv =>
        if kv.1 == r.packageFile then
          (kv.1, { kv.2 with task_bundle_upgrades := kv.2.task_bundle_upgrades ++ [tb_update] })
        else kv)
  (tb_map, pf_map)

/-- `TaskBundleUpgradesManager._collect` over the validated upgrade records:
fold into `_task_bundle_upgrades` (keyed by the current bundle reference) and
`_package_file_updates` (keyed by package file path). -/
def collect (upgrades : List UpgradeRecord) : PyDict TaskBundleUpgrade × PyDict PackageFile :=
  upgrades.foldl collect_step ([], [])

/-- The action of one `_collect` iteration on `_task_bundle_upgrades` alone
(the first component of `collect_step`). -/
def collect_tb_step (m : PyDict TaskBundleUpgrade) (r : UpgradeRecord) :
    PyDict TaskBundleUpgrade :=
  match m.lookup (mk_task_bundle_upgrade r).current_bundle with
  | none =>
    m ++ [((mk_task_bundle_upgrade r).current_bundle, mk_task_bundle_upgrade r)]
  | some _ => m

/-- The set of existing scratch files, as a list of path names.  Only the
applier's own file creations (`tempfile.mkstemp`) and deletions (`os.unlink`)
are tracked: the migration scripts edit the content of the pipeline file and
never create or remove these scratch paths. -/
abbrev ScratchFiles := List String

/-- The inner loop of `_apply_migration`: one `bash <scratch> <file>` run per
migration, stopping with `CalledProcessError` at the first script that exits
non-zero (`proc.check_returncode()`). -/
def run_migrations (run_ok : TaskBundleMigration → Bool) :
    List TaskBundleMigration → Except Unit Unit
  | [] => .ok ()
  | m :: ms => if run_ok m then run_migrations run_ok ms else .error ()

/-- `MigrationFileOperation._apply_migration`: create the migration scratch
file, run every migration of every upgrade against the pipeline file, and on
every exit path (the `finally` block) close and unlink the scratch file.
Returns the loop outcome together with the resulting file set. -/
def apply_migration (run_ok : TaskBundleMigration → Bool)
    (task_bundle_upgrades : List TaskBundleUpgrade) (migration_file : String)
    (fs : ScratchFiles) : Except Unit Unit × ScratchFiles :=
  let fs := migration_file :: fs
  let r := run_migrations run_ok (task_bundle_upgrades.map (fun u => u.migrations)).flatten
  (r, fs.erase migration_file)

/-- `MigrationFileOperation.handle_pipeline_file`: checksum, apply the batch,
and when the file changed do one load/dump round trip of the YAML
(`yaml_ok = false` models an exception raised during that YAML handling, which
propagates).  No scratch file beyond the one of `_apply_migration` exists. -/
def handle_pipeline_file (run_ok : TaskBundleMigration → Bool) (yaml_ok changed : Bool)
    (task_bundle_upgrades : List TaskBundleUpgrade) (migration_file : String)
    (fs : ScratchFiles) : Except Unit Unit × ScratchFiles :=
  match apply_migration run_ok task_bundle_upgrades migration_file fs with
  | (.error e, fs) => (.error e, fs)
  | (.ok _, fs) => (if changed && !yaml_ok then .error () else .ok (), fs)

/-- `MigrationFileOperation.handle_pipeline_run_file`: create the scratch
pipeline file, dump the embedded pipeline spec into it (`dump_ok = false`
models `dump_yaml` raising), apply the batch against that scratch copy, and
when it changed write the updated document back (`yaml_ok` as above).  The
method has no try/finally: no path unlinks `temp_pipeline_file`. -/
def handle_pipeline_run_file (run_ok : TaskBundleMigration → Bool)
    (dump_ok yaml_ok changed : Bool) (task_bundle_upgrades : List TaskBundleUpgrade)
    (temp_pipeline_file migration_file : String) (fs : ScratchFiles) :
    Except Unit Unit × ScratchFiles :=
  let fs := temp_pipeline_file :: fs
  if !dump_ok then (.error (), fs)
  else
    match apply_migration run_ok task_bundle_upgrades migration_file fs with
    | (.error e, fs) => (.error e, fs)
    | (.ok _, fs) => (if changed && !yaml_ok then .error () else .ok (), fs)

/-! Theorems.  Helper lemmas come first, then for each claim its theorem and,
where needed, its witness or counterexample. -/

/-- C4: `expand_versions` expands `("0.2","0.5")` to
`["0.2","0.3","0.4","0.5"]` and `("0.3","0.3")` to `["0.3"]`, and whenever
the current version parses strictly greater than the new version it raises
`RangeError` instead of returning a list. -/
theorem C4_expand_versions :
    expand_versions "0.2" "0.5" = .ok ["0.2", "0.3", "0.4", "0.5"] ∧
    expand_versions "0.3" "0.3" = .ok ["0.3"] ∧
    ∀ (cur new : String) (vc vn : Ver), parse_version cur = some vc →
      parse_version new = some vn → verCmp vc vn = Ordering.gt →
      expand_versions cur new = .error PyError.rangeError := by
  refine ⟨by decide, by decide, ?_⟩
  intro cur new vc vn hc hn hgt
  simp [expand_versions, liftParse, hc, hn, hgt]
  rfl

/-- Witness for C4 at the concrete failing pair `("0.5","0.2")`. -/
theorem C4_expand_versions_witness :
    expand_versions "0.5" "0.2" = .error PyError.rangeError :=
  C4_expand_versions.2.2 "0.5" "0.2" [0, 5] [0, 2] (by decide) (by decide) (by decide)

/-- C6: `fetch_migration_file` raises `IncorrectMigrationAttachment` exactly
when more than one referrer descriptor carries a truthy is-migration
annotation; with none such it returns no script and no error; with exactly
one it returns the blob of that referrer's single layer. -/
theorem C6_fetch_migration_file (env : OciEnv) :
    (fetch_migration_file env = .error .incorrectMigrationAttachment ↔
      1 < (migration_descriptors env).length) ∧
    ((migration_descriptors env).length = 0 → fetch_migration_file env = .ok none) ∧
    (∀ d layer, migration_descriptors env = [d] →
      env.manifest_layers d.digest = [layer] →
      fetch_migration_file env = .ok (some (env.blob layer.digest))) := by
  rcases hm : migration_descriptors env with _ | ⟨d, _ | ⟨d2, ds⟩⟩
  · refine ⟨?_, fun _ => ?_, fun d layer hd _ => by simp at hd⟩
    · unfold fetch_migration_file
      rw [hm]
      simp
    · unfold fetch_migration_file
      rw [hm]
      simp
  · refine ⟨?_, by simp [hm], ?_⟩
    · unfold fetch_migration_file
      rw [hm]
      constructor
      · intro h
        simp at h
        rcases h1 : env.manifest_layers d.digest with _ | ⟨l0, ls⟩ <;> simp [h1] at h
      · intro h
        simp at h
    · intro d0 layer hd hl
      injection hd with h1 h2
      subst h1
      unfold fetch_migration_file
      rw [hm]
      simp [hl]
  · refine ⟨?_, by simp [hm], fun d0 layer hd _ => by simp at hd⟩
    unfold fetch_migration_file
    rw [hm]
    simp

/-- Witness for C6 at a concrete one-referrer environment. -/
theorem C6_fetch_migration_file_witness :
    fetch_migration_file
      ⟨[⟨"sha256:ref1", [("dev.konflux-ci.task.is-migration", "true")]⟩],
        fun _ => [⟨"sha256:layer1", []⟩], fun _ => "echo hi"⟩ = .ok (some "echo hi") :=
  (C6_fetch_migration_file _).2.2 ⟨"sha256:ref1", [("dev.konflux-ci.task.is-migration", "true")]⟩
    ⟨"sha256:layer1", []⟩ (by decide) rfl

/-- The first component of one `collect_step` iteration is `collect_tb_step`. -/
theorem collect_step_fst (mp : PyDict TaskBundleUpgrade × PyDict PackageFile)
    (r : UpgradeRecord) : (collect_step mp r).1 = collect_tb_step mp.1 r := by
  unfold collect_step collect_tb_step
  rcases h : mp.1.lookup (mk_task_bundle_upgrade r).current_bundle <;> simp [h]

/-- The `_task_bundle_upgrades` dictionary is the fold of `collect_tb_step`. -/
theorem collect_fold_fst : ∀ (rs : List UpgradeRecord)
    (mp : PyDict TaskBundleUpgrade × PyDict PackageFile),
    (List.foldl collect_step mp rs).1 = List.foldl collect_tb_step mp.1 rs := by
  intro rs
  induction rs with
  | nil => intro mp; rfl
  | cons r rs ih =>
    intro mp
    rw [List.foldl_cons, List.foldl_cons, ih, collect_step_fst]

/-- Lookup distributes over association-list append, first list first. -/
theorem lookup_append {β : Type} (l₁ l₂ : List (String × β)) (k : String) :
    (l₁ ++ l₂).lookup k =
      match l₁.lookup k with
      | some v => some v
      | none => l₂.lookup k := by
  induction l₁ with
  | nil => rfl
  | cons e l ih =>
    rcases e with ⟨k0, v0⟩
    rw [List.cons_append, List.lookup_cons, List.lookup_cons]
    cases h : (k == k0) <;> simp [ih]

/-- A key that looks up to nothing is not among the stored keys. -/
theorem lookup_none_not_mem {β : Type} : ∀ (m : List (String × β)) (k : String),
    m.lookup k = none → k ∉ m.map Prod.fst := by
  intro m
  induction m with
  | nil => intro k _ hk; simp at hk
  | cons e l ih =>
    intro k h hk
    rcases e with ⟨k0, v0⟩
    rw [List.lookup_cons] at h
    simp only [List.map_cons, List.mem_cons] at hk
    cases hke : (k == k0)
    · rw [hke] at h
      rcases hk with hk | hk
      · rw [beq_eq_false_iff_ne] at hke
        exact hke hk
      · exact ih k h hk
    · rw [hke] at h
      exact Option.noConfusion h

/-- Lookup in the folded `_task_bundle_upgrades`: an entry present in the
accumulator wins, and otherwise the first record whose current-bundle key
matches provides the stored upgrade. -/
theorem collect_lookup : ∀ (rs : List UpgradeRecord) (m : PyDict TaskBundleUpgrade) (k : String),
    (List.foldl collect_tb_step m rs).lookup k =
      match m.lookup k with
      | some v => some v
      | none => (rs.find? (fun r => (mk_task_bundle_upgrade r).current_bundle == k)).map
          mk_task_bundle_upgrade := by
  intro rs
  induction rs with
  | nil =>
    intro m k
    rcases h : m.lookup k <;> simp [h]
  | cons r rs ih =>
    intro m k
    rw [List.foldl_cons, ih]
    unfold collect_tb_step
    rcases hf : m.lookup (mk_task_bundle_upgrade r).current_bundle with _ | v
    · rw [lookup_append]
      cases hk : ((mk_task_bundle_upgrade r).current_bundle == k)
      · have hk2 : (k == (mk_task_bundle_upgrade r).current_bundle) = false := by
          rw [beq_eq_false_iff_ne] at hk ⊢
          exact fun hh => hk hh.symm
        rw [List.find?_cons_of_neg _ (by simp [hk])]
        rcases hm : m.lookup k with _ | v2 <;>
          simp [List.lookup_cons, hk2, hm]
      · have hkeq : (mk_task_bundle_upgrade r).current_bundle = k := beq_iff_eq.mp hk
        have hm : m.lookup k = none := by rw [← hkeq]; exact hf
        have hk2 : (k == (mk_task_bundle_upgrade r).current_bundle) = true := by
          rw [beq_iff_eq]; exact hkeq.symm
        simp [hm, List.lookup_cons, hk2, List.find?_cons, hk]
    · cases hk : ((mk_task_bundle_upgrade r).current_bundle == k)
      · rw [List.find?_cons_of_neg _ (by simp [hk])]
      · have hm : m.lookup k = some v := by
          rw [← beq_iff_eq.mp hk]; exact hf
        simp [hm]

/-- The folded `_task_bundle_upgrades` has unique keys. -/
theorem collect_keys_nodup : ∀ (rs : List UpgradeRecord) (m : PyDict TaskBundleUpgrade),
    (m.map Prod.fst).Nodup → ((List.foldl collect_tb_step m rs).map Prod.fst).Nodup := by
  intro rs
  induction rs with
  | nil => intro m h; exact h
  | cons r rs ih =>
    intro m h
    rw [List.foldl_cons]
    apply ih
    unfold collect_tb_step
    rcases hf : m.lookup (mk_task_bundle_upgrade r).current_bundle with _ | v
    · rw [List.map_append]
      rw [List.nodup_append]
      refine ⟨h, List.nodup_singleton _, ?_⟩
      intro a ha hb
      simp at hb
      rw [hb] at ha
      exact lookup_none_not_mem m _ hf ha
    · exact h

/-- Every entry of the folded `_task_bundle_upgrades` satisfies the key
invariant `entry.current_bundle = key`. -/
theorem collect_entries : ∀ (rs : List UpgradeRecord) (m : PyDict TaskBundleUpgrade),
    (∀ kv ∈ m, (kv : String × TaskBundleUpgrade).2.current_bundle = kv.1) →
    ∀ kv ∈ List.foldl collect_tb_step m rs, kv.2.current_bundle = kv.1 := by
  intro rs
  induction rs with
  | nil => intro m h; exact h
  | cons r rs ih =>
    intro m h
    rw [List.foldl_cons]
    apply ih
    unfold collect_tb_step
    rcases hf : m.lookup (mk_task_bundle_upgrade r).current_bundle with _ | v
    · intro kv hkv
      rcases List.mem_append.mp hkv with hkv | hkv
      · exact h kv hkv
      · rcases List.mem_singleton.mp hkv with rfl
        rfl
    · exact h

/-- C9: `_collect` deduplicates upgrades by the current bundle reference
`depName:currentValue@currentDigest` alone — the stored keys are unique, a
key's lookup finds exactly the `TaskBundleUpgrade` built from the first input
record whose current-bundle key matches (later records with the same key, in
particular ones differing only in newValue or newDigest, are collapsed into
that stored entry), and every stored entry satisfies
`entry.current_bundle = key`. -/
theorem C9_collect_dedup (upgrades : List UpgradeRecord) :
    ((collect upgrades).1.map Prod.fst).Nodup ∧
    (∀ k, (collect upgrades).1.lookup k =
      (upgrades.find? (fun r => (mk_task_bundle_upgrade r).current_bundle == k)).map
        mk_task_bundle_upgrade) ∧
    (∀ kv ∈ (collect upgrades).1, kv.2.current_bundle = kv.1) := by
  have h1 : (collect upgrades).1 = List.foldl collect_tb_step [] upgrades :=
    collect_fold_fst upgrades ([], [])
  refine ⟨?_, ?_, ?_⟩
  · rw [h1]
    exact collect_keys_nodup upgrades [] (by simp)
  · intro k
    rw [h1, collect_lookup upgrades [] k]
    rfl
  · rw [h1]
    exact collect_entries upgrades [] (by simp)

/-- C8 counterexample: already on the plain successful path of
`handle_pipeline_run_file` (no migrations, nothing changed, no exception) the
scratch pipeline YAML file `"tmp-pipeline"` is still present in the file set
when the operation returns, so not every scratch file the applier created has
been unlinked. -/
theorem C8_counterexample :
    handle_pipeline_run_file (fun _ => true) true true false [] "tmp-pipeline" "tmp-mig" [] =
      (.ok (), ["tmp-pipeline"]) := by decide

/-- C8 amended: the migration-script scratch file is unlinked on every exit
path — successful completion, an exception during the YAML round trip
(`yaml_ok = false`), and a fatal migration-script failure (`run_ok` false on
some migration) — of `_apply_migration`, `handle_pipeline_file` and
`handle_pipeline_run_file`; the scratch pipeline YAML file of
`handle_pipeline_run_file`, however, is never unlinked: on every exit path it
is still present when the method returns or the exception propagates. -/
theorem C8_scratch_file_cleanup (run_ok : TaskBundleMigration → Bool)
    (dump_ok yaml_ok changed : Bool) (ups : List TaskBundleUpgrade)
    (temp mig : String) (fs : ScratchFiles) (hfresh : mig ∉ fs) :
    ((apply_migration run_ok ups mig fs).2 = fs ∧
      mig ∉ (apply_migration run_ok ups mig fs).2) ∧
    (handle_pipeline_file run_ok yaml_ok changed ups mig fs).2 = fs ∧
    (handle_pipeline_run_file run_ok dump_ok yaml_ok changed ups temp mig fs).2 =
      temp :: fs ∧
    temp ∈ (handle_pipeline_run_file run_ok dump_ok yaml_ok changed ups temp mig fs).2 := by
  have ha : ∀ g : ScratchFiles, (apply_migration run_ok ups mig g).2 = g := by
    intro g
    unfold apply_migration
    exact List.erase_cons_head mig g
  have hrun :
      (handle_pipeline_run_file run_ok dump_ok yaml_ok changed ups temp mig fs).2 =
        temp :: fs := by
    unfold handle_pipeline_run_file
    dsimp only
    cases dump_ok
    · simp
    · simp only [Bool.not_true, Bool.false_eq_true, if_false]
      rcases h : apply_migration run_ok ups mig (temp :: fs) with ⟨r, fs2⟩
      have h2 : fs2 = temp :: fs := by
        have h3 := ha (temp :: fs)
        rw [h] at h3
        exact h3
      rcases r <;> simp [h2]
  refine ⟨⟨ha fs, by rw [ha fs]; exact hfresh⟩, ?_, hrun, ?_⟩
  · unfold handle_pipeline_file
    rcases h : apply_migration run_ok ups mig fs with ⟨r, fs2⟩
    have h2 : fs2 = fs := by
      have h3 := ha fs
      rw [h] at h3
      exact h3
    rcases r <;> simp [h2]
  · rw [hrun]
    exact List.mem_cons_self temp fs

/-- Witness for C8 at a fatally failing migration batch. -/
theorem C8_scratch_file_cleanup_witness :
    (apply_migration (fun _ => false)
      [⟨"dep", "0.1", "sha256:c", "0.2", "sha256:n", [⟨"b", "exit 1"⟩]⟩] "m" []).2 = [] ∧
    "t" ∈ (handle_pipeline_run_file (fun _ => false) true false true
      [⟨"dep", "0.1", "sha256:c", "0.2", "sha256:n", [⟨"b", "exit 1"⟩]⟩] "t" "m" []).2 :=
  ⟨(C8_scratch_file_cleanup (fun _ => false) true false true
      [⟨"dep", "0.1", "sha256:c", "0.2", "sha256:n", [⟨"b", "exit 1"⟩]⟩] "t" "m" []
      (by decide)).1.1,
    (C8_scratch_file_cleanup (fun _ => false) true false true
      [⟨"dep", "0.1", "sha256:c", "0.2", "sha256:n", [⟨"b", "exit 1"⟩]⟩] "t" "m" []
      (by decide)).2.2.2⟩

/-- C5: after `resolver_resolve`, each upgrade's migrations list is exactly
the reversal of the sequence yielded by the strategy's `_resolve_migrations`
generator on that upgrade's range — for any generator `gen`, hence in
particular for `simple_resolve_migrations` and `linked_resolve_migrations`. -/
theorem C5_resolve_reverses (gen : String → List QuayTagInfo → List TaskBundleMigration)
    (range_of : TaskBundleUpgrade → List QuayTagInfo) (tb_upgrades : List TaskBundleUpgrade)
    (h : ∀ u ∈ tb_upgrades, u.migrations = []) :
    resolver_resolve gen range_of tb_upgrades =
      tb_upgrades.map (fun u =>
        { u with migrations := (gen u.dep_name (range_of u)).reverse }) := by
  unfold resolver_resolve
  apply List.map_congr_left
  intro u hu
  rw [h u hu]
  rfl

/-- Witness for C5 on a one-upgrade batch with a two-migration generator. -/
theorem C5_resolve_reverses_witness :
    resolver_resolve (fun _ _ => [⟨"b1", "s1"⟩, ⟨"b2", "s2"⟩]) (fun _ => [])
        [⟨"dep", "0.1", "sha256:c", "0.2", "sha256:n", []⟩] =
      [⟨"dep", "0.1", "sha256:c", "0.2", "sha256:n", [⟨"b2", "s2"⟩, ⟨"b1", "s1"⟩]⟩] := by
  rw [C5_resolve_reverses (fun _ _ => [⟨"b1", "s1"⟩, ⟨"b2", "s2"⟩]) (fun _ => [])
    [⟨"dep", "0.1", "sha256:c", "0.2", "sha256:n", []⟩] (by decide)]
  decide

/-- Over `self_loop_env` the linked walk stays at index 0 forever: the
previous-migration-bundle link of the only bundle resolves to its own index,
so no fuel is ever enough. -/
theorem self_loop_go_none (fuel : Nat) : ∀ acc : List TaskBundleMigration,
    linked_go self_loop_env "dep" self_loop_range ["sha256:d1"] 0 fuel acc = none := by
  induction fuel with
  | zero => intro acc; rfl
  | succ n ih =>
    intro acc
    show linked_go self_loop_env "dep" self_loop_range ["sha256:d1"] 0 n (acc ++ []) = none
    rw [List.append_nil]
    exact ih acc

/-- C2 counterexample: `_resolve_migrations` of the linked resolver does not
terminate for every annotation assignment — on the non-empty range
`self_loop_range`, whose only bundle's previous-migration-bundle annotation is
its own digest, the loop never stops: the walk reaches no result under any
fuel, because `digests.index` returns the same position again instead of a
strictly older one. -/
theorem C2_counterexample :
    ¬ ∃ fuel ms,
      linked_resolve_migrations self_loop_env "dep" self_loop_range fuel = some ms := by
  rintro ⟨fuel, ms, h⟩
  have h2 : linked_go self_loop_env "dep" self_loop_range ["sha256:d1"] 0 fuel [] =
      some ms := h
  rw [self_loop_go_none fuel []] at h2
  exact Option.noConfusion h2

/-- From any in-range position, the linked walk stops once the fuel exceeds
the number of positions at or after it, provided every followed link found in
`digests` points to a strictly larger index (an older bundle). -/
theorem linked_go_term (env : ResolverEnv) (dep : String) (range : List QuayTagInfo)
    (h : ∀ i tag, range[i]? = some tag →
      (env.manifest tag.manifest_digest).previous_migration_bundle ≠ "" →
      ∀ j, (range.map QuayTagInfo.manifest_digest).findIdx?
        (fun d => d == (env.manifest tag.manifest_digest).previous_migration_bundle) =
          some j →
      i < j) :
    ∀ (fuel i : Nat) (acc : List TaskBundleMigration), i < range.length →
      range.length - i < fuel →
      ∃ ms, linked_go env dep range (range.map QuayTagInfo.manifest_digest) i fuel acc =
        some ms := by
  intro fuel
  induction fuel with
  | zero => intro i acc hi hf; omega
  | succ n ih =>
    intro i acc hi hf
    rcases ht : range[i]? with _ | tag
    · have h0 := List.getElem?_eq_getElem hi
      rw [ht] at h0
      exact Option.noConfusion h0
    · rw [linked_go, ht]
      dsimp only
      cases hd : ((env.manifest tag.manifest_digest).previous_migration_bundle == "")
      · cases hidx : (range.map QuayTagInfo.manifest_digest).findIdx?
            (fun d => d == (env.manifest tag.manifest_digest).previous_migration_bundle)
            with
        | none =>
          refine ⟨acc ++ step_yield env dep tag, ?_⟩
          simp [hd, hidx]
        | some j =>
          have hij : i < j :=
            h i tag ht (by rw [beq_eq_false_iff_ne] at hd; exact hd) j hidx
          have hjlen : j < range.length := by
            have h3 := (List.findIdx?_eq_some_iff_findIdx_eq.mp hidx).1
            rw [List.length_map] at h3
            exact h3
          have hrec := ih j (acc ++ step_yield env dep tag) hjlen (by omega)
          rcases hrec with ⟨ms, hms⟩
          refine ⟨ms, ?_⟩
          simp [hd, hidx, hms]
      · refine ⟨acc ++ step_yield env dep tag, ?_⟩
        simp [hd]

/-- C2 amended: on every range and every registry whose followed
previous-migration-bundle links each resolve to a strictly older position in
the digests list, the linked resolver terminates; fuel `range.length + 1`
already suffices (each iteration either stops or strictly advances towards
the oldest position). -/
theorem C2_linked_termination (env : ResolverEnv) (dep : String)
    (range : List QuayTagInfo)
    (h : ∀ i tag, range[i]? = some tag →
      (env.manifest tag.manifest_digest).previous_migration_bundle ≠ "" →
      ∀ j, (range.map QuayTagInfo.manifest_digest).findIdx?
        (fun d => d == (env.manifest tag.manifest_digest).previous_migration_bundle) =
          some j →
      i < j) :
    ∃ ms, linked_resolve_migrations env dep range (range.length + 1) = some ms := by
  unfold linked_resolve_migrations
  cases hre : range.isEmpty
  · have hlen : 0 < range.length := by
      rcases range with _ | ⟨t, ts⟩
      · simp at hre
      · simp
    have h4 := linked_go_term env dep range h (range.length + 1) 0 [] hlen (by omega)
    simpa using h4
  · exact ⟨[], by simp⟩

/-- Witness for C2 on a one-bundle range with no previous-migration link. -/
theorem C2_linked_termination_witness :
    ∃ ms, linked_resolve_migrations ⟨fun _ => {}, fun _ => none⟩ "dep"
      [⟨"0.1-a", "sha256:w1", 1⟩] 2 = some ms :=
  C2_linked_termination ⟨fun _ => {}, fun _ => none⟩ "dep" [⟨"0.1-a", "sha256:w1", 1⟩]
    (fun _ _ _ hne _ _ => absurd rfl hne)

/-- When the tag name's version fails to parse, the loop body raises
`InvalidVersion` whatever the bookkeeping state. -/
theorem drop_step_parse_none (cd nd : String) (st : DropState) (t : TagInfo)
    (h : parse_version (version_part t.name) = none) :
    drop_step cd nd st t = .error .invalidVersion := by
  unfold drop_step
  rw [h]
  cases hc1 : (st.cur.isNone && (t.manifest_digest == cd))
  · cases hc2 : (st.new.isNone && (t.manifest_digest == nd)) <;>
      simp [hc1, hc2, liftParse]
  · cases hh : st.highest <;> simp [hc1, hh, liftParse]

/-- When the tag name's version parses, the loop body is the total step. -/
theorem drop_step_parse_some (cd nd : String) (st : DropState) (t : TagInfo) (v : Ver)
    (h : parse_version (version_part t.name) = some v) :
    drop_step cd nd st t = .ok (drop_stepT cd nd st t) := by
  have htv : tag_ver t = v := by unfold tag_ver; rw [h]; rfl
  unfold drop_step drop_stepT mark_step keep_step
  rw [h]
  cases hc1 : (st.cur.isNone && (t.manifest_digest == cd)) <;>
    cases hc2 : (st.new.isNone && (t.manifest_digest == nd)) <;>
      cases hh : st.highest <;>
        (simp [hc1, hc2, hh, liftParse, htv]; try (split <;> rfl))

/-- Under parse success for every listed tag, the drop loop is the total
fold. -/
theorem drop_go_eq_fold (cd nd : String) : ∀ (l : List TagInfo) (st : DropState),
    (∀ t ∈ l, (parse_version (version_part t.name)).isSome) →
    drop_go cd nd l st = .ok (dropFold cd nd l st) := by
  intro l
  induction l with
  | nil => intro st _; rfl
  | cons t ts ih =>
    intro st h
    have ht := h t (List.mem_cons_self t ts)
    rcases hp : parse_version (version_part t.name) with _ | v
    · rw [hp] at ht
      exact absurd ht (by simp)
    · rw [drop_go, drop_step_parse_some cd nd st t v hp]
      dsimp only
      rw [ih (drop_stepT cd nd st t) (fun x hx => h x (List.mem_cons_of_mem t hx))]
      rfl

/-- The bookkeeping half of the loop body never changes the kept list. -/
theorem mark_kept (cd nd : String) (st : DropState) (t : TagInfo) :
    (mark_step cd nd st t).kept = st.kept := by
  unfold mark_step
  cases hc1 : (st.cur.isNone && (t.manifest_digest == cd))
  · cases hc2 : (st.new.isNone && (t.manifest_digest == nd)) <;> simp [hc1, hc2]
  · cases hh : st.highest <;> simp [hc1, hh]

/-- The bookkeeping half never changes the watermark. -/
theorem mark_highest (cd nd : String) (st : DropState) (t : TagInfo) :
    (mark_step cd nd st t).highest = st.highest := by
  unfold mark_step
  cases hc1 : (st.cur.isNone && (t.manifest_digest == cd))
  · cases hc2 : (st.new.isNone && (t.manifest_digest == nd)) <;> simp [hc1, hc2]
  · cases hh : st.highest <;> simp [hc1, hh]

/-- The keep decision as a function of the watermark alone. -/
theorem keep_kept (st : DropState) (t : TagInfo) :
    (keep_step st t).kept =
      (match st.highest with
       | none => st.kept ++ [t]
       | some h =>
         if verCmp (tag_ver t) h == Ordering.lt then st.kept else st.kept ++ [t]) := by
  unfold keep_step
  cases hh : st.highest
  · rfl
  · dsimp only
    split <;> rfl

/-- The watermark update as a function of the watermark alone. -/
theorem keep_highest (st : DropState) (t : TagInfo) :
    (keep_step st t).highest =
      (match st.highest with
       | none => some (tag_ver t)
       | some h =>
         if verCmp (tag_ver t) h == Ordering.lt then some h
         else some (tag_ver t)) := by
  unfold keep_step
  cases hh : st.highest
  · rfl
  · dsimp only
    split <;> first | rfl | exact hh

/-- The kept list and the watermark of the drops fold do not depend on the
digests of the bundle upgrade, only on the initial kept list and watermark. -/
theorem dropFold_kept_highest (cd nd cd2 nd2 : String) : ∀ (l : List TagInfo)
    (st st' : DropState), st.kept = st'.kept → st.highest = st'.highest →
    (dropFold cd nd l st).kept = (dropFold cd2 nd2 l st').kept ∧
    (dropFold cd nd l st).highest = (dropFold cd2 nd2 l st').highest := by
  intro l
  induction l with
  | nil => intro st st' hk hh; exact ⟨hk, hh⟩
  | cons t ts ih =>
    intro st st' hk hh
    apply ih
    · unfold drop_stepT
      rw [keep_kept, keep_kept, mark_kept, mark_kept, mark_highest, mark_highest, hk, hh]
    · unfold drop_stepT
      rw [keep_highest, keep_highest, mark_highest, mark_highest, hh]

/-- C3: out-of-order pruning on the spec's example keeps exactly the
watermark-respecting tags: whatever digests the upgrade records for the
current and the new bundle, the pruned list re-sorted newest-first is
`["0.3-b","0.3-a","0.2-a","0.1-a"]` — the tags `0.2-b` and `0.1-b` are
dropped because a higher version already existed when they were created. -/
theorem C3_drop_out_of_order (cd nd : String) :
    (drop_out_of_order_versions c3_tags
        ⟨"quay.io/konflux-ci/task-d", "0.1", cd, "0.3", nd, []⟩).map
      (fun r => r.1.map TagInfo.name) = .ok ["0.3-b", "0.3-a", "0.2-a", "0.1-a"] := by
  have hwf : ∀ t ∈ c3_tags.reverse, (parse_version (version_part t.name)).isSome := by
    decide
  have hgo := drop_go_eq_fold cd nd c3_tags.reverse
    ⟨[], none, none, none, false⟩ hwf
  have hkept := (dropFold_kept_highest cd nd "x" "y" c3_tags.reverse
    ⟨[], none, none, none, false⟩ ⟨[], none, none, none, false⟩ rfl rfl).1
  unfold drop_out_of_order_versions
  dsimp only
  rw [hgo]
  dsimp only
  rw [hkept]
  have hconc :
      (sort_ts_desc (dropFold "x" "y" c3_tags.reverse
        ⟨[], none, none, none, false⟩).kept).map TagInfo.name =
        ["0.3-b", "0.3-a", "0.2-a", "0.1-a"] := by decide
  simp [Except.map, hconc]

/-- The keep decision never changes `current_tag_info`. -/
theorem keep_cur (st : DropState) (t : TagInfo) : (keep_step st t).cur = st.cur := by
  unfold keep_step
  cases hh : st.highest
  · rfl
  · dsimp only
    split <;> rfl

/-- The keep decision never changes `new_tag_info`. -/
theorem keep_new (st : DropState) (t : TagInfo) : (keep_step st t).new = st.new := by
  unfold keep_step
  cases hh : st.highest
  · rfl
  · dsimp only
    split <;> rfl

/-- The keep decision never changes the out-of-order flag. -/
theorem keep_ooo (st : DropState) (t : TagInfo) : (keep_step st t).ooo = st.ooo := by
  unfold keep_step
  cases hh : st.highest
  · rfl
  · dsimp only
    split <;> rfl

/-- `current_tag_info` after the bookkeeping half: set on the first tag whose
digest is the current one. -/
theorem mark_cur_eq (cd nd : String) (st : DropState) (t : TagInfo) :
    (mark_step cd nd st t).cur =
      if st.cur.isNone && (t.manifest_digest == cd) then some t else st.cur := by
  unfold mark_step
  cases hc1 : (st.cur.isNone && (t.manifest_digest == cd))
  · cases hc2 : (st.new.isNone && (t.manifest_digest == nd)) <;> simp [hc1, hc2]
  · cases hh : st.highest <;> simp [hc1, hh]

/-- `new_tag_info` after the bookkeeping half: set by the `elif` on the first
tag whose digest is the new one, unless the current branch fired. -/
theorem mark_new_eq (cd nd : String) (st : DropState) (t : TagInfo) :
    (mark_step cd nd st t).new =
      if st.cur.isNone && (t.manifest_digest == cd) then st.new
      else if st.new.isNone && (t.manifest_digest == nd) then some t
      else st.new := by
  unfold mark_step
  cases hc1 : (st.cur.isNone && (t.manifest_digest == cd))
  · cases hc2 : (st.new.isNone && (t.manifest_digest == nd)) <;> simp [hc1, hc2]
  · cases hh : st.highest <;> simp [hc1, hh]

/-- The out-of-order flag after the bookkeeping half. -/
theorem mark_ooo_eq (cd nd : String) (st : DropState) (t : TagInfo) :
    (mark_step cd nd st t).ooo =
      if st.cur.isNone && (t.manifest_digest == cd) then
        (match st.highest with
         | some h => st.ooo || (verCmp (tag_ver t) h == Ordering.lt)
         | none => st.ooo)
      else st.ooo := by
  unfold mark_step
  cases hc1 : (st.cur.isNone && (t.manifest_digest == cd))
  · cases hc2 : (st.new.isNone && (t.manifest_digest == nd)) <;> simp [hc1, hc2]
  · cases hh : st.highest <;> simp [hc1, hh]

/-- `current_tag_info` after one whole loop body. -/
theorem stepT_cur (cd nd : String) (st : DropState) (t : TagInfo) :
    (drop_stepT cd nd st t).cur =
      if st.cur.isNone && (t.manifest_digest == cd) then some t else st.cur := by
  unfold drop_stepT
  rw [keep_cur, mark_cur_eq]

/-- `new_tag_info` after one whole loop body. -/
theorem stepT_new (cd nd : String) (st : DropState) (t : TagInfo) :
    (drop_stepT cd nd st t).new =
      if st.cur.isNone && (t.manifest_digest == cd) then st.new
      else if st.new.isNone && (t.manifest_digest == nd) then some t
      else st.new := by
  unfold drop_stepT
  rw [keep_new, mark_new_eq]

/-- The out-of-order flag after one whole loop body. -/
theorem stepT_ooo (cd nd : String) (st : DropState) (t : TagInfo) :
    (drop_stepT cd nd st t).ooo =
      if st.cur.isNone && (t.manifest_digest == cd) then
        (match st.highest with
         | some h => st.ooo || (verCmp (tag_ver t) h == Ordering.lt)
         | none => st.ooo)
      else st.ooo := by
  unfold drop_stepT
  rw [keep_ooo, mark_ooo_eq]

/-- Once `current_tag_info` is set it never changes. -/
theorem fold_cur_some (cd nd : String) : ∀ (l : List TagInfo) (st : DropState)
    (tc : TagInfo), st.cur = some tc → (dropFold cd nd l st).cur = some tc := by
  intro l
  induction l with
  | nil => intro st tc h; exact h
  | cons t ts ih =>
    intro st tc h
    apply ih
    rw [stepT_cur, h]
    simp

/-- Once `new_tag_info` is set it never changes. -/
theorem fold_new_some (cd nd : String) : ∀ (l : List TagInfo) (st : DropState)
    (tn : TagInfo), st.new = some tn → (dropFold cd nd l st).new = some tn := by
  intro l
  induction l with
  | nil => intro st tn h; exact h
  | cons t ts ih =>
    intro st tn h
    apply ih
    rw [stepT_new, h]
    cases hc1 : (st.cur.isNone && (t.manifest_digest == cd)) <;> simp

/-- With no current-digest tag in the remaining list, `current_tag_info`
stays unset. -/
theorem fold_cur_none (cd nd : String) : ∀ (l : List TagInfo) (st : DropState),
    (∀ t ∈ l, (t.manifest_digest == cd) = false) → st.cur = none →
    (dropFold cd nd l st).cur = none := by
  intro l
  induction l with
  | nil => intro st _ h; exact h
  | cons t ts ih =>
    intro st hall h
    apply ih _ (fun x hx => hall x (List.mem_cons_of_mem t hx))
    rw [stepT_cur, hall t (List.mem_cons_self t ts), h]
    simp

/-- With no new-digest tag in the remaining list, `new_tag_info` stays
unset. -/
theorem fold_new_none (cd nd : String) : ∀ (l : List TagInfo) (st : DropState),
    (∀ t ∈ l, (t.manifest_digest == nd) = false) → st.new = none →
    (dropFold cd nd l st).new = none := by
  intro l
  induction l with
  | nil => intro st _ h; exact h
  | cons t ts ih =>
    intro st hall h
    apply ih _ (fun x hx => hall x (List.mem_cons_of_mem t hx))
    rw [stepT_new, hall t (List.mem_cons_self t ts), h]
    cases hc1 : (st.cur.isNone && (t.manifest_digest == cd)) <;> simp

/-- C7 counterexample: `c7_tags` lists no tag with the upgrade's current or
new digest, yet `determine_task_bundle_upgrades_range` raises instead of
returning the empty list: the tag name `"0.-a"` passes the task-tag regular
expression but its version prefix `"0."` makes `parse_version` raise
`InvalidVersion` inside the pruning pass, before the missing-tag early
return is reached. -/
theorem C7_counterexample :
    (∀ t ∈ c7_tags, t.manifest_digest ≠ c7_upgrade.current_digest ∧
      t.manifest_digest ≠ c7_upgrade.new_digest) ∧
    determine_task_bundle_upgrades_range c7_tags c7_upgrade =
      .error PyError.invalidVersion := by decide

/-- C7 amended: whenever every pinned tag name's version prefix parses, an
upgrade none of whose pinned listed tags carries the current digest — or none
the new digest — resolves to the empty range, without raising. -/
theorem C7_missing_tag_empty_range (tags : List TagInfo) (u : TaskBundleUpgrade)
    (hwf : ∀ t ∈ only_tags_pinned_by_version_revision tags,
      (parse_version (version_part t.name)).isSome)
    (hmiss :
      (∀ t ∈ only_tags_pinned_by_version_revision tags,
        (t.manifest_digest == u.current_digest) = false) ∨
      (∀ t ∈ only_tags_pinned_by_version_revision tags,
        (t.manifest_digest == u.new_digest) = false)) :
    determine_task_bundle_upgrades_range tags u = .ok [] := by
  have hwfr : ∀ t ∈ (only_tags_pinned_by_version_revision tags).reverse,
      (parse_version (version_part t.name)).isSome :=
    fun t ht => hwf t (List.mem_reverse.mp ht)
  have hgo := drop_go_eq_fold u.current_digest u.new_digest
    (only_tags_pinned_by_version_revision tags).reverse
    ⟨[], none, none, none, false⟩ hwfr
  unfold determine_task_bundle_upgrades_range drop_out_of_order_versions
  rw [hgo]
  dsimp only
  rcases hmiss with hm | hm
  · rw [fold_cur_none u.current_digest u.new_digest _ _
      (fun t ht => hm t (List.mem_reverse.mp ht)) rfl]
  · rcases hcur : (dropFold u.current_digest u.new_digest
        (only_tags_pinned_by_version_revision tags).reverse
        ⟨[], none, none, none, false⟩).cur with _ | tc
    · rfl
    · rw [fold_new_none u.current_digest u.new_digest _ _
        (fun t ht => hm t (List.mem_reverse.mp ht)) rfl]

/-- Witness for C7: a pinned, parseable tag whose digest matches neither
bound resolves to the empty range. -/
theorem C7_missing_tag_empty_range_witness :
    determine_task_bundle_upgrades_range [⟨"0.1-aa", "sha256:zz", 1⟩]
      ⟨"quay.io/konflux-ci/task-w", "0.1", "sha256:c7w", "0.2", "sha256:n7w", []⟩ =
      .ok [] :=
  C7_missing_tag_empty_range [⟨"0.1-aa", "sha256:zz", 1⟩]
    ⟨"quay.io/konflux-ci/task-w", "0.1", "sha256:c7w", "0.2", "sha256:n7w", []⟩
    (by decide) (Or.inl (by decide))

/-- C10 counterexample: the digest `"D"` is both the current and the new
digest of `c10_upgrade` and is carried by two tags of `c10_tags`; the second
occurrence (oldest first) sets `new_tag_info` через the `elif`, no early
return fires, `current_pos` stays `-1`, and the returned range is the
non-empty `[0.2-a@D]` — which moreover contains the current digest — instead
of the empty list the claim asserts. -/
theorem C10_counterexample :
    c10_upgrade.current_digest = c10_upgrade.new_digest ∧
    determine_task_bundle_upgrades_range c10_tags c10_upgrade =
      .ok [⟨"0.2-a", "D", 2⟩] ∧
    determine_task_bundle_upgrades_range c10_tags c10_upgrade ≠ .ok [] := by decide

/-- With equal current and new digests, at most one matching tag and an unset
`new_tag_info`, the whole fold leaves `new_tag_info` unset: the single
matching tag is captured by the current branch first, and the `elif` never
fires. -/
theorem fold_new_none_same (cd : String) : ∀ (l : List TagInfo) (st : DropState),
    st.new = none →
    (st.cur = none → l.countP (fun t => t.manifest_digest == cd) ≤ 1) →
    (st.cur.isSome → l.countP (fun t => t.manifest_digest == cd) = 0) →
    (dropFold cd cd l st).new = none := by
  intro l
  induction l with
  | nil => intro st h _ _; exact h
  | cons t ts ih =>
    intro st hnew h1 h0
    rcases hcur : st.cur with _ | tc
    · cases hd : (t.manifest_digest == cd)
      · have hc2 : (t :: ts).countP (fun x => x.manifest_digest == cd) =
            ts.countP (fun x => x.manifest_digest == cd) :=
          List.countP_cons_of_neg _ ts (by simp [hd])
        apply ih
        · rw [stepT_new, hnew, hcur, hd]
          simp
        · intro _
          have := h1 hcur
          rw [hc2] at this
          exact this
        · intro hs
          rw [stepT_cur, hcur, hd] at hs
          simp at hs
      · have hc2 : (t :: ts).countP (fun x => x.manifest_digest == cd) =
            ts.countP (fun x => x.manifest_digest == cd) + 1 :=
          List.countP_cons_of_pos _ ts hd
        have hts0 : ts.countP (fun x => x.manifest_digest == cd) = 0 := by
          have := h1 hcur
          rw [hc2] at this
          omega
        apply ih
        · rw [stepT_new, hnew, hcur, hd]
          simp
        · intro _
          omega
        · intro _
          exact hts0
    · have hall0 : (t :: ts).countP (fun x => x.manifest_digest == cd) = 0 := by
        apply h0
        rw [hcur]
        rfl
      have hd : (t.manifest_digest == cd) = false := by
        cases hd : (t.manifest_digest == cd)
        · rfl
        · rw [List.countP_cons_of_pos _ ts hd] at hall0
          omega
      have hts0 : ts.countP (fun x => x.manifest_digest == cd) = 0 := by
        rw [List.countP_cons_of_neg _ ts (by simp [hd])] at hall0
        exact hall0
      apply ih
      · rw [stepT_new, hnew, hcur, hd]
        simp
      · intro hc
        rw [stepT_cur, hcur, hd] at hc
        simp at hc
      · intro _
        exact hts0

/-- C10 amended: when the current digest equals the new digest, the pinned
listed tags carry that digest at most once, and every pinned tag name's
version prefix parses, `determine_task_bundle_upgrades_range` returns the
empty list.  (With the digest on several tags the `elif` does set
`new_tag_info` on a later occurrence and the range can be non-empty, as
`C10_counterexample` shows.) -/
theorem C10_same_digest_empty_range (tags : List TagInfo) (u : TaskBundleUpgrade)
    (heq : u.current_digest = u.new_digest)
    (hwf : ∀ t ∈ only_tags_pinned_by_version_revision tags,
      (parse_version (version_part t.name)).isSome)
    (hcount : (only_tags_pinned_by_version_revision tags).countP
      (fun t => t.manifest_digest == u.current_digest) ≤ 1) :
    determine_task_bundle_upgrades_range tags u = .ok [] := by
  have hwfr : ∀ t ∈ (only_tags_pinned_by_version_revision tags).reverse,
      (parse_version (version_part t.name)).isSome :=
    fun t ht => hwf t (List.mem_reverse.mp ht)
  have hgo := drop_go_eq_fold u.current_digest u.current_digest
    (only_tags_pinned_by_version_revision tags).reverse
    ⟨[], none, none, none, false⟩ hwfr
  unfold determine_task_bundle_upgrades_range drop_out_of_order_versions
  rw [← heq, hgo]
  dsimp only
  rcases hcur : (dropFold u.current_digest u.current_digest
      (only_tags_pinned_by_version_revision tags).reverse
      ⟨[], none, none, none, false⟩).cur with _ | tc
  · rfl
  · rw [fold_new_none_same u.current_digest _ _ rfl
      (fun _ => by rw [List.countP_reverse]; exact hcount)
      (fun hs => by simp at hs)]

/-- Witness for C10: one pinned tag carrying the shared digest resolves to
the empty range. -/
theorem C10_same_digest_empty_range_witness :
    determine_task_bundle_upgrades_range [⟨"0.1-bb", "sha256:s10", 5⟩]
      ⟨"quay.io/konflux-ci/task-x", "0.1", "sha256:s10", "0.1", "sha256:s10", []⟩ =
      .ok [] :=
  C10_same_digest_empty_range [⟨"0.1-bb", "sha256:s10", 5⟩]
    ⟨"quay.io/konflux-ci/task-x", "0.1", "sha256:s10", "0.1", "sha256:s10", []⟩
    rfl (by decide) (by decide)

/-- The kept list after one whole loop body, as a function of the
watermark. -/
theorem stepT_kept_eq (cd nd : String) (st : DropState) (t : TagInfo) :
    (drop_stepT cd nd st t).kept =
      (match st.highest with
       | none => st.kept ++ [t]
       | some h =>
         if verCmp (tag_ver t) h == Ordering.lt then st.kept else st.kept ++ [t]) := by
  unfold drop_stepT
  rw [keep_kept, mark_kept, mark_highest]

/-- Unfolding the drop fold by one tag. -/
theorem dropFold_cons (cd nd : String) (t : TagInfo) (ts : List TagInfo)
    (st : DropState) :
    dropFold cd nd (t :: ts) st = dropFold cd nd ts (drop_stepT cd nd st t) := rfl

/-- The kept list of the fold extends the initial kept list by a sublist of
the traversed tags. -/
theorem fold_kept_append (cd nd : String) : ∀ (l : List TagInfo) (st : DropState),
    ∃ s, (dropFold cd nd l st).kept = st.kept ++ s ∧ s.Sublist l := by
  intro l
  induction l with
  | nil => intro st; exact ⟨[], by simp [dropFold], List.nil_sublist []⟩
  | cons t ts ih =>
    intro st
    rcases ih (drop_stepT cd nd st t) with ⟨s, hs, hsub⟩
    rcases hh : st.highest with _ | h
    · have hk : (drop_stepT cd nd st t).kept = st.kept ++ [t] := by
        rw [stepT_kept_eq, hh]
      exact ⟨t :: s, by rw [dropFold_cons, hs, hk, List.append_cons _ t s],
        List.Sublist.cons₂ t hsub⟩
    · cases hlt : (verCmp (tag_ver t) h == Ordering.lt)
      · have hk : (drop_stepT cd nd st t).kept = st.kept ++ [t] := by
          rw [stepT_kept_eq, hh]
          simp [hlt]
        exact ⟨t :: s, by rw [dropFold_cons, hs, hk, List.append_cons _ t s],
          List.Sublist.cons₂ t hsub⟩
      · have hk : (drop_stepT cd nd st t).kept = st.kept := by
          rw [stepT_kept_eq, hh]
          simp [hlt]
        exact ⟨s, by rw [dropFold_cons, hs, hk], List.Sublist.cons t hsub⟩

/-- The kept list never holds more matches of a predicate than the initial
kept list and the traversed tags together. -/
theorem fold_kept_count (cd nd : String) (p : TagInfo → Bool) (l : List TagInfo)
    (st : DropState) :
    ((dropFold cd nd l st).kept).countP p ≤ st.kept.countP p + l.countP p := by
  rcases fold_kept_append cd nd l st with ⟨s, hs, hsub⟩
  rw [hs, List.countP_append]
  have := hsub.countP_le p
  omega

/-- A tag already kept stays kept. -/
theorem fold_kept_mem (cd nd : String) (l : List TagInfo) (st : DropState)
    (t0 : TagInfo) (h : t0 ∈ st.kept) : t0 ∈ (dropFold cd nd l st).kept := by
  rcases fold_kept_append cd nd l st with ⟨s, hs, _⟩
  rw [hs]
  exact List.mem_append_left s h

/-- When neither the initial kept list nor the traversed tags match a
predicate, no kept tag matches it. -/
theorem fold_kept_nomatch (cd nd : String) (p : TagInfo → Bool) (l : List TagInfo)
    (st : DropState) (hl : ∀ x ∈ l, p x = false) (hst : ∀ x ∈ st.kept, p x = false) :
    ∀ x ∈ (dropFold cd nd l st).kept, p x = false := by
  rcases fold_kept_append cd nd l st with ⟨s, hs, hsub⟩
  rw [hs]
  intro x hx
  rcases List.mem_append.mp hx with hx | hx
  · exact hst x hx
  · exact hl x (hsub.mem hx)

/-- The out-of-order flag is stable while no traversed tag carries the
current digest. -/
theorem fold_ooo_stable (cd nd : String) : ∀ (l : List TagInfo) (st : DropState),
    (∀ x ∈ l, (x.manifest_digest == cd) = false) →
    (dropFold cd nd l st).ooo = st.ooo := by
  intro l
  induction l with
  | nil => intro st _; rfl
  | cons t ts ih =>
    intro st hall
    rw [dropFold_cons]
    have h1 : (drop_stepT cd nd st t).ooo = st.ooo := by
      rw [stepT_ooo, hall t (List.mem_cons_self t ts)]
      simp
    rw [ih (drop_stepT cd nd st t) (fun x hx => hall x (List.mem_cons_of_mem t hx)), h1]

/-- `current_tag_info` of the fold from an unset state is the first traversed
tag carrying the current digest. -/
theorem fold_cur_find (cd nd : String) : ∀ (l : List TagInfo) (st : DropState),
    st.cur = none →
    (dropFold cd nd l st).cur = l.find? (fun t => t.manifest_digest == cd) := by
  intro l
  induction l with
  | nil => intro st h; exact h
  | cons t ts ih =>
    intro st h
    cases hd : (t.manifest_digest == cd)
    · rw [List.find?_cons_of_neg _ (by simp [hd])]
      apply ih
      rw [stepT_cur, h, hd]
      simp
    · rw [@List.find?_cons_of_pos TagInfo (fun x => x.manifest_digest == cd) t ts hd]
      rw [dropFold_cons]
      apply fold_cur_some
      rw [stepT_cur, h, hd]
      simp

/-- `new_tag_info` of the fold from an unset state is the first traversed tag
carrying the new digest, provided the two digests differ (such a tag then
never takes the current branch). -/
theorem fold_new_find (cd nd : String) (hne : cd ≠ nd) : ∀ (l : List TagInfo)
    (st : DropState), st.new = none →
    (dropFold cd nd l st).new = l.find? (fun t => t.manifest_digest == nd) := by
  intro l
  induction l with
  | nil => intro st h; exact h
  | cons t ts ih =>
    intro st h
    cases hd : (t.manifest_digest == nd)
    · rw [List.find?_cons_of_neg _ (by simp [hd])]
      apply ih
      rw [stepT_new, h, hd]
      cases hc1 : (st.cur.isNone && (t.manifest_digest == cd)) <;> simp
    · rw [@List.find?_cons_of_pos TagInfo (fun x => x.manifest_digest == nd) t ts hd]
      rw [dropFold_cons]
      apply fold_new_some
      have hdc : (t.manifest_digest == cd) = false := by
        rw [beq_eq_false_iff_ne]
        rw [beq_iff_eq] at hd
        rw [hd]
        exact fun hh => hne hh.symm
      rw [stepT_new, h, hd, hdc]
      simp

/-- The crux of the range bounds: when exactly one traversed tag carries the
current digest, the final out-of-order flag records exactly whether that tag
was dropped — flag set means no kept tag carries the current digest, flag
clear means some kept tag does. -/
theorem fold_ooo_cur (cd nd : String) : ∀ (l : List TagInfo) (st : DropState),
    l.countP (fun x => x.manifest_digest == cd) = 1 →
    st.cur = none → st.ooo = false →
    (∀ x ∈ st.kept, (x.manifest_digest == cd) = false) →
    ((dropFold cd nd l st).ooo = true →
      ∀ x ∈ (dropFold cd nd l st).kept, (x.manifest_digest == cd) = false) ∧
    ((dropFold cd nd l st).ooo = false →
      ∃ x ∈ (dropFold cd nd l st).kept, (x.manifest_digest == cd) = true) := by
  intro l
  induction l with
  | nil =>
    intro st hcnt _ _ _
    simp at hcnt
  | cons t ts ih =>
    intro st hcnt hcur hooo hkept
    cases hd : (t.manifest_digest == cd)
    · have hcnt2 : ts.countP (fun x => x.manifest_digest == cd) = 1 := by
        rw [List.countP_cons_of_neg _ ts (by simp [hd])] at hcnt
        exact hcnt
      rw [dropFold_cons]
      apply ih
      · exact hcnt2
      · rw [stepT_cur, hcur, hd]
        simp
      · rw [stepT_ooo, hcur, hd]
        simp [hooo]
      · intro x hx
        have hk := stepT_kept_eq cd nd st t
        rcases hh : st.highest with _ | h
        · rw [hh] at hk
          rw [hk] at hx
          rcases List.mem_append.mp hx with hx | hx
          · exact hkept x hx
          · rcases List.mem_singleton.mp hx with rfl
            exact hd
        · rw [hh] at hk
          cases hlt : (verCmp (tag_ver t) h == Ordering.lt)
          · simp [hlt] at hk
            rw [hk] at hx
            rcases List.mem_append.mp hx with hx | hx
            · exact hkept x hx
            · rcases List.mem_singleton.mp hx with rfl
              exact hd
          · simp [hlt] at hk
            rw [hk] at hx
            exact hkept x hx
    · have hts0 : ∀ x ∈ ts, (x.manifest_digest == cd) = false := by
        rw [List.countP_cons_of_pos _ ts hd] at hcnt
        have h0 : ts.countP (fun x => x.manifest_digest == cd) = 0 := by omega
        intro x hx
        rcases hxx : (x.manifest_digest == cd) with _ | _
        · rfl
        · exact absurd hxx (List.countP_eq_zero.mp h0 x hx)
      rw [dropFold_cons]
      have hstooo := fold_ooo_stable cd nd ts (drop_stepT cd nd st t) hts0
      rcases hh : st.highest with _ | h
      · have hk : (drop_stepT cd nd st t).kept = st.kept ++ [t] := by
          rw [stepT_kept_eq, hh]
        have ho : (drop_stepT cd nd st t).ooo = false := by
          rw [stepT_ooo, hcur, hd, hh]
          simp [hooo]
        constructor
        · intro habs
          rw [hstooo, ho] at habs
          exact absurd habs (by simp)
        · intro _
          refine ⟨t, ?_, hd⟩
          apply fold_kept_mem
          rw [hk]
          exact List.mem_append_right st.kept (List.mem_singleton_self t)
      · have ho : (drop_stepT cd nd st t).ooo =
            (verCmp (tag_ver t) h == Ordering.lt) := by
          rw [stepT_ooo, hcur, hd, hh]
          simp [hooo]
        cases hlt : (verCmp (tag_ver t) h == Ordering.lt)
        · have hk : (drop_stepT cd nd st t).kept = st.kept ++ [t] := by
            rw [stepT_kept_eq, hh]
            simp [hlt]
          constructor
          · intro habs
            rw [hstooo, ho, hlt] at habs
            exact absurd habs (by simp)
          · intro _
            refine ⟨t, ?_, hd⟩
            apply fold_kept_mem
            rw [hk]
            exact List.mem_append_right st.kept (List.mem_singleton_self t)
        · have hk : (drop_stepT cd nd st t).kept = st.kept := by
            rw [stepT_kept_eq, hh]
            simp [hlt]
          constructor
          · intro _
            apply fold_kept_nomatch
            · exact hts0
            · rw [hk]
              exact hkept
          · intro habs
            rw [hstooo, ho, hlt] at habs
            exact absurd habs (by simp)

/-- Stable descending insertion permutes. -/
theorem insert_ts_desc_perm (t : TagInfo) : ∀ (l : List TagInfo),
    (insert_ts_desc t l).Perm (t :: l) := by
  intro l
  induction l with
  | nil => exact List.Perm.refl [t]
  | cons u us ih =>
    rw [insert_ts_desc]
    split
    · exact List.Perm.refl _
    · exact ((ih.cons u).trans (List.Perm.swap t u us))

/-- The stable sort of the kept list permutes it. -/
theorem sort_ts_desc_perm (l : List TagInfo) : (sort_ts_desc l).Perm l := by
  have haux : ∀ (l acc : List TagInfo),
      (l.foldl (fun a t => insert_ts_desc t a) acc).Perm (acc ++ l) := by
    intro l
    induction l with
    | nil => intro acc; simp
    | cons t ts ih =>
      intro acc
      rw [List.foldl_cons]
      refine (ih (insert_ts_desc t acc)).trans ?_
      have h1 : (insert_ts_desc t acc ++ ts).Perm ((t :: acc) ++ ts) :=
        (insert_ts_desc_perm t acc).append_right ts
      refine h1.trans ?_
      rw [List.cons_append]
      exact (List.perm_middle).symm
  have := haux l []
  simpa using this

/-- `find_positions` is component-wise the last-assignment scan; the `elif`
makes the current component ignore tags that carry the new digest. -/
theorem find_positions_eq (cd nd : String) : ∀ (l : List TagInfo) (i cp np : Int),
    find_positions cd nd l i (cp, np) =
      (last_upd (fun t => !(t.manifest_digest == nd) && (t.manifest_digest == cd)) l i cp,
       last_upd (fun t => t.manifest_digest == nd) l i np) := by
  intro l
  induction l with
  | nil => intro i cp np; rfl
  | cons t ts ih =>
    intro i cp np
    rw [find_positions, last_upd, last_upd]
    cases hn : (t.manifest_digest == nd) <;> cases hc : (t.manifest_digest == cd) <;>
      simp [hn, hc] <;>
      first
        | exact ih (i + 1) cp np
        | exact ih (i + 1) i np
        | exact ih (i + 1) cp i

/-- A scan over matchless tags keeps the default. -/
theorem last_upd_nomatch (p : TagInfo → Bool) : ∀ (l : List TagInfo) (i d : Int),
    (∀ x ∈ l, p x = false) → last_upd p l i d = d := by
  intro l
  induction l with
  | nil => intro i d _; rfl
  | cons t ts ih =>
    intro i d hall
    rw [last_upd, hall t (List.mem_cons_self t ts)]
    simp only [Bool.false_eq_true, if_false]
    exact ih (i + 1) d (fun x hx => hall x (List.mem_cons_of_mem t hx))

/-- With exactly one match at position `k`, the scan ends at `i + k`. -/
theorem last_upd_unique (p : TagInfo → Bool) : ∀ (l : List TagInfo) (i d : Int)
    (k : Nat) (hk : k < l.length), l.countP p = 1 → p (l.get ⟨k, hk⟩) = true →
    last_upd p l i d = i + k := by
  intro l
  induction l with
  | nil => intro i d k hk; simp at hk
  | cons t ts ih =>
    intro i d k hk hcnt hp
    cases hd : p t
    · rcases k with _ | j
      · rw [List.get_eq_getElem] at hp
        simp at hp
        rw [hp] at hd
        exact absurd hd (by simp)
      · have hcnt2 : ts.countP p = 1 := by
          rw [List.countP_cons_of_neg _ ts (by simp [hd])] at hcnt
          exact hcnt
        rw [last_upd, hd]
        simp only [Bool.false_eq_true, if_false]
        have hj : j < ts.length := by
          rw [List.length_cons] at hk
          omega
        have hpj : p (ts.get ⟨j, hj⟩) = true := by
          rw [List.get_eq_getElem] at hp ⊢
          simpa using hp
        rw [ih (i + 1) d j hj hcnt2 hpj]
        push_cast
        ring
    · have hts0 : ts.countP p = 0 := by
        rw [List.countP_cons_of_pos _ ts hd] at hcnt
        omega
      rcases k with _ | j
      · rw [last_upd, hd]
        simp only [if_true]
        rw [last_upd_nomatch p ts (i + 1) i
          (fun x hx => by
            rcases hxx : p x with _ | _
            · rfl
            · exact absurd hxx (List.countP_eq_zero.mp hts0 x hx))]
        simp
      · have hj : j < ts.length := by
          rw [List.length_cons] at hk
          omega
        have hpj : p (ts.get ⟨j, hj⟩) = true := by
          rw [List.get_eq_getElem] at hp ⊢
          simpa using hp
        have : ts.countP p ≠ 0 := by
          intro h0
          exact absurd hpj (by
            have := List.countP_eq_zero.mp h0 (ts.get ⟨j, hj⟩) (List.get_mem ts j hj)
            simpa using this)
        exact absurd hts0 this

/-- A predicate counted once picks out a unique index. -/
theorem countP_one_unique (p : TagInfo → Bool) : ∀ (l : List TagInfo),
    l.countP p = 1 →
    ∃ k, ∃ hk : k < l.length, p (l.get ⟨k, hk⟩) = true ∧
      ∀ j (hj : j < l.length), p (l.get ⟨j, hj⟩) = true → j = k := by
  intro l
  induction l with
  | nil => intro h; simp at h
  | cons t ts ih =>
    intro hcnt
    cases hd : p t
    · have hcnt2 : ts.countP p = 1 := by
        rw [List.countP_cons_of_neg _ ts (by simp [hd])] at hcnt
        exact hcnt
      rcases ih hcnt2 with ⟨k, hk, hpk, huniq⟩
      refine ⟨k + 1, by simpa using Nat.succ_lt_succ hk, by simpa using hpk, ?_⟩
      intro j hj hpj
      rcases j with _ | j2
      · rw [List.get_eq_getElem] at hpj
        simp at hpj
        rw [hpj] at hd
        exact absurd hd (by simp)
      · have hj2 : j2 < ts.length := by
          rw [List.length_cons] at hj
          omega
        have := huniq j2 hj2 (by
          rw [List.get_eq_getElem] at hpj ⊢
          simpa using hpj)
        omega
    · have hts0 : ts.countP p = 0 := by
        rw [List.countP_cons_of_pos _ ts hd] at hcnt
        omega
      refine ⟨0, by simp, by simpa using hd, ?_⟩
      intro j hj hpj
      rcases j with _ | j2
      · rfl
      · have hj2 : j2 < ts.length := by
          rw [List.length_cons] at hj
          omega
        have hpj2 : p (ts.get ⟨j2, hj2⟩) = true := by
          rw [List.get_eq_getElem] at hpj ⊢
          simpa using hpj
        exact absurd hpj2 (by
          have := List.countP_eq_zero.mp hts0 (ts.get ⟨j2, hj2⟩) (List.get_mem ts j2 hj2)
          simpa using this)

/-- A nonnegative in-range Python index normalises to itself. -/
theorem py_bound_coe (len k : Nat) (h : k ≤ len) : py_bound len (k : Int) = k := by
  unfold py_bound
  have h0 : ¬((k : Int) < 0) := by omega
  rw [if_neg h0]
  simp [h]

/-- The Python index `-1` normalises to the last position. -/
theorem py_bound_neg_one (len : Nat) : py_bound len (-1) = len - 1 := by
  unfold py_bound
  rw [if_pos (by omega)]
  omega

/-- Before a predicate's unique position, no prefix element matches. -/
theorem countP_take_eq_zero (p : TagInfo → Bool) (P : List TagInfo) (k : Nat)
    (h : ∀ m (hm : m < P.length), p (P.get ⟨m, hm⟩) = true → k ≤ m) :
    (P.take k).countP p = 0 := by
  rw [List.countP_eq_zero]
  intro x hx hpx
  rcases List.mem_iff_getElem.mp hx with ⟨m, hm, hxm⟩
  have hmk : m < k := by
    have := List.length_take k P
    rw [this] at hm
    omega
  have hmP : m < P.length := by
    have := List.length_take k P
    rw [this] at hm
    omega
  have hPx : P.get ⟨m, hmP⟩ = x := by
    rw [List.get_eq_getElem]
    rw [← List.getElem_take P]
    · exact hxm
  have := h m hmP (by rw [hPx]; exact hpx)
  omega

/-- The slice starting at the unique matching position: its head is that
element and it contains exactly one match. -/
theorem drop_at_unique (p : TagInfo → Bool) (P : List TagInfo) (n : Nat)
    (hn : n < P.length) (hcnt : P.countP p = 1) (hpn : p (P.get ⟨n, hn⟩) = true)
    (huniq : ∀ j (hj : j < P.length), p (P.get ⟨j, hj⟩) = true → j = n) :
    (P.drop n).head? = some (P.get ⟨n, hn⟩) ∧ (P.drop n).countP p = 1 := by
  have hhead : (P.drop n).head? = some (P.get ⟨n, hn⟩) := by
    rw [List.head?_drop, List.get_eq_getElem]
    exact List.getElem?_eq_getElem hn
  have htz : (P.take n).countP p = 0 :=
    countP_take_eq_zero p P n (fun m hm hpm => by rw [huniq m hm hpm])
  have hsplit : (P.take n).countP p + (P.drop n).countP p = 1 := by
    rw [← List.countP_append, List.take_append_drop]
    exact hcnt
  exact ⟨hhead, by omega⟩

/-- The slice between the unique new position and a later bound: its head is
the new element, it contains exactly one match of the new predicate, and it
misses every element whose unique position lies at the bound or beyond. -/
theorem take_drop_at_unique (p : TagInfo → Bool) (P : List TagInfo) (n c : Nat)
    (hc : c ≤ P.length) (hnc : n < c) (hn : n < P.length)
    (hcnt : P.countP p = 1) (hpn : p (P.get ⟨n, hn⟩) = true)
    (huniq : ∀ j (hj : j < P.length), p (P.get ⟨j, hj⟩) = true → j = n) :
    ((P.take c).drop n).head? = some (P.get ⟨n, hn⟩) ∧
    ((P.take c).drop n).countP p = 1 := by
  have hhead : ((P.take c).drop n).head? = some (P.get ⟨n, hn⟩) := by
    rw [List.head?_drop, List.getElem?_take]
    rw [if_pos hnc, List.get_eq_getElem]
    exact List.getElem?_eq_getElem hn
  refine ⟨hhead, ?_⟩
  have hle : ((P.take c).drop n).countP p ≤ P.countP p :=
    ((List.drop_sublist n (P.take c)).trans (List.take_sublist c P)).countP_le p
  have hge : 0 < ((P.take c).drop n).countP p := by
    rw [List.countP_pos_iff]
    exact ⟨P.get ⟨n, hn⟩, List.mem_of_mem_head? (by rw [hhead]; exact rfl), hpn⟩
  omega

/-- C1 counterexample: in `c1_tags` both bounds are found — `0.3-c@C` is the
current tag and `0.2-b@B` the new tag — but the new tag is itself
out-of-order and pruned, so `new_pos` stays `-1` and the slice
`tags_info[-1:current_pos]` is empty: the returned range contains no tag
whose manifest digest is the new digest, contradicting "newDigest appears
exactly once at index 0". -/
theorem C1_counterexample :
    determine_task_bundle_upgrades_range c1_tags c1_upgrade = .ok [] ∧
    ¬(∃ q, (([] : List QuayTagInfo)).head? = some q ∧
        q.manifest_digest = c1_upgrade.new_digest) := by
  constructor
  · decide
  · rintro ⟨q, hq, _⟩
    exact Option.noConfusion hq

/-- The new-versus-current predicates coincide when the digests differ. -/
theorem cur_pred_eq (cd nd : String) (hne : cd ≠ nd) :
    (fun t : TagInfo => !(t.manifest_digest == nd) && (t.manifest_digest == cd)) =
      (fun t : TagInfo => t.manifest_digest == cd) := by
  funext t
  cases hx : (t.manifest_digest == cd)
  · simp
  · have h1 : t.manifest_digest = cd := beq_iff_eq.mp hx
    have h2 : (t.manifest_digest == nd) = false := by
      rw [beq_eq_false_iff_ne, h1]
      exact hne
    rw [h2]
    simp

/-- The range slice taken by `determine_task_bundle_upgrades_range` on a
pruned list in which the new digest occurs exactly once, the current digest
occurs only after it (or, in the out-of-order case, not at all): the mapped
result starts with the new tag, contains it exactly once, and contains no
current tag. -/
theorem range_slice_spec (cd nd : String) (P : List TagInfo) (ooo : Bool)
    (hne : cd ≠ nd)
    (hPn : P.countP (fun t => t.manifest_digest == nd) = 1)
    (hPcooo : ooo = true → ∀ x ∈ P, (x.manifest_digest == cd) = false)
    (hPcok : ooo = false → P.countP (fun t => t.manifest_digest == cd) = 1)
    (hord : ∀ i j (hi : i < P.length) (hj : j < P.length),
      (P.get ⟨i, hi⟩).manifest_digest = nd →
      (P.get ⟨j, hj⟩).manifest_digest = cd → i < j) :
    (∃ q, ((if ooo then py_slice_from P (find_positions cd nd P 0 (-1, -1)).2
        else py_slice P (find_positions cd nd P 0 (-1, -1)).2
          (find_positions cd nd P 0 (-1, -1)).1).map
        QuayTagInfo.from_tag_info).head? = some q ∧ q.manifest_digest = nd) ∧
    ((if ooo then py_slice_from P (find_positions cd nd P 0 (-1, -1)).2
        else py_slice P (find_positions cd nd P 0 (-1, -1)).2
          (find_positions cd nd P 0 (-1, -1)).1).map
        QuayTagInfo.from_tag_info).countP (fun q => q.manifest_digest == nd) = 1 ∧
    (∀ q ∈ (if ooo then py_slice_from P (find_positions cd nd P 0 (-1, -1)).2
        else py_slice P (find_positions cd nd P 0 (-1, -1)).2
          (find_positions cd nd P 0 (-1, -1)).1).map
        QuayTagInfo.from_tag_info, q.manifest_digest ≠ cd) := by
  rcases countP_one_unique (fun t => t.manifest_digest == nd) P hPn
    with ⟨n, hnlt, hpn, huniqn⟩
  have hnp : (find_positions cd nd P 0 (-1, -1)).2 = (n : Int) := by
    rw [find_positions_eq]
    dsimp only
    rw [last_upd_unique (fun t => t.manifest_digest == nd) P 0 (-1) n hnlt hPn hpn]
    omega
  cases ooo
  · -- normal case
    have hPc := hPcok rfl
    rcases countP_one_unique (fun t => t.manifest_digest == cd) P hPc
      with ⟨c, hclt, hpc, huniqc⟩
    have hcp : (find_positions cd nd P 0 (-1, -1)).1 = (c : Int) := by
      rw [find_positions_eq]
      dsimp only
      rw [cur_pred_eq cd nd hne]
      rw [last_upd_unique (fun t => t.manifest_digest == cd) P 0 (-1) c hclt hPc hpc]
      omega
    have hnc : n < c := hord n c hnlt hclt (beq_iff_eq.mp hpn) (beq_iff_eq.mp hpc)
    have hslice : py_slice P ((n : Int)) ((c : Int)) = (P.take c).drop n := by
      unfold py_slice
      rw [py_bound_coe P.length c (le_of_lt hclt), py_bound_coe P.length n (le_of_lt hnlt)]
    rw [if_neg (by simp), hnp, hcp, hslice]
    rcases take_drop_at_unique (fun t => t.manifest_digest == nd) P n c
      (le_of_lt hclt) hnc hnlt hPn hpn huniqn with ⟨hhead, hcount⟩
    have htake0 : (P.take c).countP (fun t => t.manifest_digest == cd) = 0 :=
      countP_take_eq_zero _ P c (fun m hm hpm => by rw [huniqc m hm hpm])
    refine ⟨⟨QuayTagInfo.from_tag_info (P.get ⟨n, hnlt⟩), ?_, beq_iff_eq.mp hpn⟩, ?_, ?_⟩
    · rw [List.head?_map, hhead]
      rfl
    · rw [List.countP_map]
      rw [List.countP_congr (fun x _ => Iff.rfl :
        ∀ x ∈ (P.take c).drop n,
          (((fun q : QuayTagInfo => q.manifest_digest == nd) ∘
            QuayTagInfo.from_tag_info) x = true ↔ (x.manifest_digest == nd) = true))]
      exact hcount
    · intro q hq
      rcases List.mem_map.mp hq with ⟨x, hx, rfl⟩
      have hxtake : x ∈ P.take c := List.mem_of_mem_drop hx
      have hxf := List.countP_eq_zero.mp htake0 x hxtake
      intro hqc
      exact hxf (by rw [beq_iff_eq]; exact hqc)
  · -- out-of-order case
    have hnocd := hPcooo rfl
    have hslice : py_slice_from P ((n : Int)) = P.drop n := by
      unfold py_slice_from
      rw [py_bound_coe P.length n (le_of_lt hnlt)]
    rw [if_pos rfl, hnp, hslice]
    rcases drop_at_unique (fun t => t.manifest_digest == nd) P n hnlt hPn hpn huniqn
      with ⟨hhead, hcount⟩
    refine ⟨⟨QuayTagInfo.from_tag_info (P.get ⟨n, hnlt⟩), ?_, beq_iff_eq.mp hpn⟩, ?_, ?_⟩
    · rw [List.head?_map, hhead]
      rfl
    · rw [List.countP_map]
      rw [List.countP_congr (fun x _ => Iff.rfl :
        ∀ x ∈ P.drop n,
          (((fun q : QuayTagInfo => q.manifest_digest == nd) ∘
            QuayTagInfo.from_tag_info) x = true ↔ (x.manifest_digest == nd) = true))]
      exact hcount
    · intro q hq
      rcases List.mem_map.mp hq with ⟨x, hx, rfl⟩
      have hxf := hnocd x (List.mem_of_mem_drop hx)
      intro hqc
      rw [beq_eq_false_iff_ne] at hxf
      exact hxf hqc

/-- C1 amended: for every upgrade with distinct current and new digests, whose
pinned listed tags carry each digest exactly once and have parseable names,
and whose new tag survives the out-of-order pruning strictly before (newer
than) any pruned-list occurrence of the current digest, the range returned by
`determine_task_bundle_upgrades_range` never contains a tag with the current
digest and contains exactly one tag with the new digest, at index 0 — in both
the normal and the out-of-order case.  (Without the survival and order
conditions the bound fails: see the pruned-new-tag counterexample.) -/
theorem C1_range_bounds (tags : List TagInfo) (u : TaskBundleUpgrade)
    (hwf : ∀ t ∈ only_tags_pinned_by_version_revision tags,
      (parse_version (version_part t.name)).isSome)
    (hne : u.current_digest ≠ u.new_digest)
    (hc1 : (only_tags_pinned_by_version_revision tags).countP
      (fun t => t.manifest_digest == u.current_digest) = 1)
    (hn1 : (only_tags_pinned_by_version_revision tags).countP
      (fun t => t.manifest_digest == u.new_digest) = 1)
    (hsurv : ∃ t ∈ pruned_tags tags u, (t.manifest_digest == u.new_digest) = true)
    (hord : ∀ i ∈ List.range (pruned_tags tags u).length,
      ∀ j ∈ List.range (pruned_tags tags u).length,
      ((pruned_tags tags u).getD i dfltTag).manifest_digest = u.new_digest →
      ((pruned_tags tags u).getD j dfltTag).manifest_digest = u.current_digest → i < j) :
    ∃ r, determine_task_bundle_upgrades_range tags u = .ok r ∧
      (∃ q, r.head? = some q ∧ q.manifest_digest = u.new_digest) ∧
      r.countP (fun q => q.manifest_digest == u.new_digest) = 1 ∧
      (∀ q ∈ r, q.manifest_digest ≠ u.current_digest) := by
  have hwfr : ∀ t ∈ (only_tags_pinned_by_version_revision tags).reverse,
      (parse_version (version_part t.name)).isSome :=
    fun t ht => hwf t (List.mem_reverse.mp ht)
  have hgo := drop_go_eq_fold u.current_digest u.new_digest
    (only_tags_pinned_by_version_revision tags).reverse
    ⟨[], none, none, none, false⟩ hwfr
  have hpr : pruned_tags tags u =
      sort_ts_desc (dropFold u.current_digest u.new_digest
        (only_tags_pinned_by_version_revision tags).reverse
        ⟨[], none, none, none, false⟩).kept := by
    unfold pruned_tags drop_out_of_order_versions
    rw [hgo]
  have hRc1 : (only_tags_pinned_by_version_revision tags).reverse.countP
      (fun t => t.manifest_digest == u.current_digest) = 1 := by
    rw [List.countP_reverse]
    exact hc1
  have hRn1 : (only_tags_pinned_by_version_revision tags).reverse.countP
      (fun t => t.manifest_digest == u.new_digest) = 1 := by
    rw [List.countP_reverse]
    exact hn1
  have hfcs : (((only_tags_pinned_by_version_revision tags).reverse).find?
      (fun t => t.manifest_digest == u.current_digest)).isSome :=
    List.find?_isSome.mpr (List.countP_pos_iff.mp (by rw [hRc1]; exact Nat.one_pos))
  rcases hfc0 : ((only_tags_pinned_by_version_revision tags).reverse).find?
      (fun t => t.manifest_digest == u.current_digest) with _ | tc
  · rw [hfc0] at hfcs
    exact absurd hfcs (by simp)
  have hfns : (((only_tags_pinned_by_version_revision tags).reverse).find?
      (fun t => t.manifest_digest == u.new_digest)).isSome :=
    List.find?_isSome.mpr (List.countP_pos_iff.mp (by rw [hRn1]; exact Nat.one_pos))
  rcases hfn0 : ((only_tags_pinned_by_version_revision tags).reverse).find?
      (fun t => t.manifest_digest == u.new_digest) with _ | tn
  · rw [hfn0] at hfns
    exact absurd hfns (by simp)
  have hFcur : (dropFold u.current_digest u.new_digest
      (only_tags_pinned_by_version_revision tags).reverse
      ⟨[], none, none, none, false⟩).cur = some tc := by
    rw [fold_cur_find u.current_digest u.new_digest _ _ rfl, hfc0]
  have hFnew : (dropFold u.current_digest u.new_digest
      (only_tags_pinned_by_version_revision tags).reverse
      ⟨[], none, none, none, false⟩).new = some tn := by
    rw [fold_new_find u.current_digest u.new_digest hne _ _ rfl, hfn0]
  have hperm := sort_ts_desc_perm (dropFold u.current_digest u.new_digest
    (only_tags_pinned_by_version_revision tags).reverse
    ⟨[], none, none, none, false⟩).kept
  have hPn_le : (sort_ts_desc (dropFold u.current_digest u.new_digest
      (only_tags_pinned_by_version_revision tags).reverse
      ⟨[], none, none, none, false⟩).kept).countP
      (fun t => t.manifest_digest == u.new_digest) ≤ 1 := by
    rw [hperm.countP_eq]
    have hcl := fold_kept_count u.current_digest u.new_digest
      (fun t => t.manifest_digest == u.new_digest)
      (only_tags_pinned_by_version_revision tags).reverse
      ⟨[], none, none, none, false⟩
    rw [hRn1] at hcl
    simpa using hcl
  have hPn1 : (sort_ts_desc (dropFold u.current_digest u.new_digest
      (only_tags_pinned_by_version_revision tags).reverse
      ⟨[], none, none, none, false⟩).kept).countP
      (fun t => t.manifest_digest == u.new_digest) = 1 := by
    rcases hsurv with ⟨x, hx, hxd⟩
    rw [hpr] at hx
    have hge : 0 < (sort_ts_desc (dropFold u.current_digest u.new_digest
        (only_tags_pinned_by_version_revision tags).reverse
        ⟨[], none, none, none, false⟩).kept).countP
        (fun t => t.manifest_digest == u.new_digest) :=
      List.countP_pos_iff.mpr ⟨x, hx, hxd⟩
    omega
  have hPc_le : (sort_ts_desc (dropFold u.current_digest u.new_digest
      (only_tags_pinned_by_version_revision tags).reverse
      ⟨[], none, none, none, false⟩).kept).countP
      (fun t => t.manifest_digest == u.current_digest) ≤ 1 := by
    rw [hperm.countP_eq]
    have hcl := fold_kept_count u.current_digest u.new_digest
      (fun t => t.manifest_digest == u.current_digest)
      (only_tags_pinned_by_version_revision tags).reverse
      ⟨[], none, none, none, false⟩
    rw [hRc1] at hcl
    simpa using hcl
  have hcrux := fold_ooo_cur u.current_digest u.new_digest
    (only_tags_pinned_by_version_revision tags).reverse
    ⟨[], none, none, none, false⟩ hRc1 rfl rfl
    (fun x hx => absurd hx (List.not_mem_nil x))
  have hPcooo : (dropFold u.current_digest u.new_digest
      (only_tags_pinned_by_version_revision tags).reverse
      ⟨[], none, none, none, false⟩).ooo = true →
      ∀ x ∈ sort_ts_desc (dropFold u.current_digest u.new_digest
        (only_tags_pinned_by_version_revision tags).reverse
        ⟨[], none, none, none, false⟩).kept,
        (x.manifest_digest == u.current_digest) = false :=
    fun ho x hx => hcrux.1 ho x (hperm.mem_iff.mp hx)
  have hPcok : (dropFold u.current_digest u.new_digest
      (only_tags_pinned_by_version_revision tags).reverse
      ⟨[], none, none, none, false⟩).ooo = false →
      (sort_ts_desc (dropFold u.current_digest u.new_digest
        (only_tags_pinned_by_version_revision tags).reverse
        ⟨[], none, none, none, false⟩).kept).countP
        (fun t => t.manifest_digest == u.current_digest) = 1 := by
    intro ho
    rcases hcrux.2 ho with ⟨x, hx, hxd⟩
    have hge : 0 < (sort_ts_desc (dropFold u.current_digest u.new_digest
        (only_tags_pinned_by_version_revision tags).reverse
        ⟨[], none, none, none, false⟩).kept).countP
        (fun t => t.manifest_digest == u.current_digest) :=
      List.countP_pos_iff.mpr ⟨x, hperm.mem_iff.mpr hx, hxd⟩
    omega
  rw [hpr] at hord
  have hord2 : ∀ i j (hi : i < (sort_ts_desc (dropFold u.current_digest u.new_digest
      (only_tags_pinned_by_version_revision tags).reverse
      ⟨[], none, none, none, false⟩).kept).length)
      (hj : j < (sort_ts_desc (dropFold u.current_digest u.new_digest
        (only_tags_pinned_by_version_revision tags).reverse
        ⟨[], none, none, none, false⟩).kept).length),
      ((sort_ts_desc (dropFold u.current_digest u.new_digest
        (only_tags_pinned_by_version_revision tags).reverse
        ⟨[], none, none, none, false⟩).kept).get ⟨i, hi⟩).manifest_digest =
          u.new_digest →
      ((sort_ts_desc (dropFold u.current_digest u.new_digest
        (only_tags_pinned_by_version_revision tags).reverse
        ⟨[], none, none, none, false⟩).kept).get ⟨j, hj⟩).manifest_digest =
          u.current_digest → i < j := by
    intro i j hi hj h1 h2
    have hgd1 : (sort_ts_desc (dropFold u.current_digest u.new_digest
        (only_tags_pinned_by_version_revision tags).reverse
        ⟨[], none, none, none, false⟩).kept).getD i dfltTag =
        (sort_ts_desc (dropFold u.current_digest u.new_digest
          (only_tags_pinned_by_version_revision tags).reverse
          ⟨[], none, none, none, false⟩).kept).get ⟨i, hi⟩ := by
      rw [List.getD_eq_getElem?_getD, List.getElem?_eq_getElem hi, List.get_eq_getElem]
      rfl
    have hgd2 : (sort_ts_desc (dropFold u.current_digest u.new_digest
        (only_tags_pinned_by_version_revision tags).reverse
        ⟨[], none, none, none, false⟩).kept).getD j dfltTag =
        (sort_ts_desc (dropFold u.current_digest u.new_digest
          (only_tags_pinned_by_version_revision tags).reverse
          ⟨[], none, none, none, false⟩).kept).get ⟨j, hj⟩ := by
      rw [List.getD_eq_getElem?_getD, List.getElem?_eq_getElem hj, List.get_eq_getElem]
      rfl
    exact hord i (List.mem_range.mpr hi) j (List.mem_range.mpr hj)
      (by rw [hgd1]; exact h1) (by rw [hgd2]; exact h2)
  have hfinal := range_slice_spec u.current_digest u.new_digest
    (sort_ts_desc (dropFold u.current_digest u.new_digest
      (only_tags_pinned_by_version_revision tags).reverse
      ⟨[], none, none, none, false⟩).kept)
    (dropFold u.current_digest u.new_digest
      (only_tags_pinned_by_version_revision tags).reverse
      ⟨[], none, none, none, false⟩).ooo
    hne hPn1 hPcooo hPcok hord2
  refine ⟨_, ?_, hfinal.1, hfinal.2.1, hfinal.2.2⟩
  unfold determine_task_bundle_upgrades_range drop_out_of_order_versions
  rw [hgo]
  dsimp only
  rw [hFcur]
  dsimp only
  rw [hFnew]

/-- Witness for C1 on a three-tag history with distinct digests, the new tag
newest and the current tag oldest. -/
theorem C1_range_bounds_witness :
    ∃ r, determine_task_bundle_upgrades_range
        [⟨"0.3-cc", "sha256:nn", 3⟩, ⟨"0.2-bb", "sha256:mm", 2⟩,
          ⟨"0.1-aa", "sha256:cc", 1⟩]
        ⟨"quay.io/konflux-ci/task-c1", "0.1", "sha256:cc", "0.3", "sha256:nn", []⟩ =
        .ok r ∧
      (∃ q, r.head? = some q ∧ q.manifest_digest = "sha256:nn") ∧
      r.countP (fun q => q.manifest_digest == "sha256:nn") = 1 ∧
      (∀ q ∈ r, q.manifest_digest ≠ "sha256:cc") :=
  C1_range_bounds
    [⟨"0.3-cc", "sha256:nn", 3⟩, ⟨"0.2-bb", "sha256:mm", 2⟩, ⟨"0.1-aa", "sha256:cc", 1⟩]
    ⟨"quay.io/konflux-ci/task-c1", "0.1", "sha256:cc", "0.3", "sha256:nn", []⟩
    (by decide) (by decide) (by decide) (by decide) (by decide) (by decide)
